import Mathlib

/-!
# Stream operators of `channels` (op.go)

A shallow embedding of the channel operators of `op.go`.

* A value travelling through a channel is Go's `interface{}`: either the nil
  interface or a boxed dynamic value.  `Data α` is `Option α`, `none` being nil.
* A receive endpoint is `Option (Chan α)`: `none` is the nil channel, and
  `some c` is a channel whose producer will still deliver `c.pending`, in
  order, and then closes it when `c.closed` holds (or goes silent for ever
  when it does not).
* The goroutine an operator starts is a step function on its local state; one
  step is one iteration of the goroutine's loop.  `run` executes a bounded
  number of iterations against consumers that are always ready to receive, and
  records what the goroutine sent and how it stands.
-/

namespace Channels

/-- Go's `interface{}` (the types `Data`, `In` and `Out` of op.go): `none` is the
nil interface value, which is also the zero value a closed channel yields. -/
abbrev Data (α : Type) := Option α

/-- The producer side of a channel as its reader sees it: the values that will
still arrive, and whether the channel is closed once they have been taken. -/
structure Chan (α : Type) where
  pending : List (Data α)
  closed : Bool
deriving DecidableEq, Repr

/-- Go's receive `v, ok := <-c`.  The result `none` means the receive blocks for
ever (nil channel, or an open channel on which nothing will arrive).  A closed,
drained channel yields the zero value with `ok = false` and stays as it is. -/
def recv {α : Type} : Option (Chan α) → Option (Data α × Bool × Option (Chan α))
  | none => none
  | some ⟨v :: vs, cl⟩ => some (v, true, some ⟨vs, cl⟩)
  | some ⟨[], true⟩ => some (none, false, some ⟨[], true⟩)
  | some ⟨[], false⟩ => none

/-- What one iteration of a goroutine's loop does: perform one send and go on,
go on without communicating, return (the deferred calls then run), block for
ever, or fault with a run-time error. -/
inductive Step (σ ε : Type) where
  | emit (e : ε) (next : σ)
  | tau (next : σ)
  | ret
  | block
  | fault

/-- How a goroutine stands after a bounded number of iterations. -/
inductive Status where
  | running
  | returned
  | blocked
  | faulted
deriving DecidableEq, Repr

/-- The sends a goroutine has performed, in order, and how it stands.  For the
operators that own their output and `defer close` it, `returned` means the
output channel has been closed after the last send. -/
structure Trace (ε : Type) where
  events : List ε
  status : Status
deriving DecidableEq, Repr

/-- Run at most `fuel` loop iterations of a goroutine from state `st`. -/
def run {σ ε : Type} (step : σ → Step σ ε) : Nat → σ → Trace ε
  | 0, _ => ⟨[], .running⟩
  | n + 1, st =>
    match step st with
    | .emit e next => ⟨e :: (run step n next).events, (run step n next).status⟩
    | .tau next => run step n next
    | .ret => ⟨[], .returned⟩
    | .block => ⟨[], .blocked⟩
    | .fault => ⟨[], .faulted⟩

/-- The channel an operator hands back to its caller: `none` is the nil channel,
`some p` a channel fed by a goroutine whose trace after `fuel` iterations is
`p fuel`. -/
abbrev Endpoint (α : Type) := Option (Nat → Trace (Data α))

/-- A consumer ranging over an endpoint: a receive on the nil channel blocks for
ever; otherwise the consumer sees what the feeding goroutine sends. -/
def readAll {α : Type} (e : Endpoint α) (fuel : Nat) : Trace (Data α) :=
  match e with
  | none => ⟨[], .blocked⟩
  | some p => p fuel

/-- The cancellation signal as the goroutine meets it: `done t = true` when the
`t`-th select the goroutine executes takes its `<-done` case. -/
abbrev Done := Nat → Bool

/-- A cancellation signal that never fires. -/
def neverDone : Done := fun _ => false

/-! ## Map -/

/-- One iteration of `for v := range in { o <- transformer(v) }`. -/
def Map_step {α β : Type} (transformer : Data α → Data β) (input : Option (Chan α)) :
    Step (Option (Chan α)) (Data β) :=
  match recv input with
  | none => .block
  | some (v, true, rest) => .emit (transformer v) rest
  | some (_, false, _) => .ret

/-- `Map`: the named result `out` starts as the nil channel.  With a nil input the
fresh channel `o` is closed but `out` is never assigned; otherwise `out = o` and
a goroutine feeds `o`. -/
def Map {α β : Type} (input : Option (Chan α)) (transformer : Data α → Data β) :
    Endpoint β :=
  match input with
  | none => none
  | some c => some (fun fuel => run (Map_step transformer) fuel (some c))

/-! ## Reduce -/

/-- The outcome of the synchronous `Reduce`: it returns a value (with the number
of calls of the combining function it made), or it never returns. -/
inductive Outcome (α : Type) where
  | ret (v : Data α) (calls : Nat)
  | blocks
deriving DecidableEq, Repr

/-- The loop `for v := range in { out = fn(out, v) }` of `Reduce`, on a channel
that will deliver the given values and is then closed or silent. -/
def Reduce_range {α : Type} (fn : Data α → Data α → Data α) (closed : Bool) :
    List (Data α) → Data α → Nat → Outcome α
  | [], acc, calls => if closed then .ret acc calls else .blocks
  | v :: vs, acc, calls => Reduce_range fn closed vs (fn acc v) (calls + 1)

/-- `Reduce`: nil for a nil input; otherwise the first receive seeds the
accumulator and the rest of the channel is folded into it. -/
def Reduce {α : Type} (input : Option (Chan α)) (fn : Data α → Data α → Data α) :
    Outcome α :=
  match input with
  | none => .ret none 0
  | some c =>
    match recv (some c) with
    | none => .blocks
    | some (_, _, none) => .blocks
    | some (first, _, some rest) => Reduce_range fn rest.closed rest.pending first 0


/-! ## Windowing operators -/

/-- Local state of the counting goroutines (`SkipN`, `TakeN`): the source, the
loop counter `i`, and the number of selects executed so far. -/
structure CountState (α : Type) where
  valueStream : Option (Chan α)
  i : Int
  tick : Nat
deriving DecidableEq, Repr

/-- Local state of the predicate goroutines (`SkipFn`, `TakeFn`, `TakeWhile`). -/
structure FilterState (α : Type) where
  valueStream : Option (Chan α)
  tick : Nat
deriving DecidableEq, Repr

/-- Local state of the `SkipWhile` goroutine: the source, the latch `take`, and
the number of selects executed so far. -/
structure LatchState (α : Type) where
  valueStream : Option (Chan α)
  take : Bool
  tick : Nat
deriving DecidableEq, Repr

/-- One iteration of the `SkipN` goroutine.  While `i < num` it is in the first
loop (`select { case <-done: return; case <-valueStream: }`); afterwards it is
in the second loop, whose send case `takeStream <- <-valueStream` evaluates the
receive on entering the select.  The receives do not look at `ok`. -/
def SkipN_step {α : Type} (done : Done) (num : Int) (st : CountState α) :
    Step (CountState α) (Data α) :=
  if st.i < num then
    if done st.tick then .ret
    else
      match recv st.valueStream with
      | none => .block
      | some (_, _, rest) => .tau ⟨rest, st.i + 1, st.tick + 1⟩
  else
    match recv st.valueStream with
    | none => .block
    | some (v, _, rest) =>
      if done st.tick then .ret else .emit v ⟨rest, st.i, st.tick + 1⟩

/-- `SkipN(done, valueStream, num)`: the trace of its goroutine. -/
def SkipN {α : Type} (done : Done) (valueStream : Option (Chan α)) (num : Int)
    (fuel : Nat) : Trace (Data α) :=
  run (SkipN_step done num) fuel ⟨valueStream, 0, 0⟩

/-- One iteration of the `SkipFn` goroutine:
`select { case <-done: return; case v := <-valueStream: if !fn(v) { takeStream <- v } }`. -/
def SkipFn_step {α : Type} (done : Done) (fn : Data α → Bool) (st : FilterState α) :
    Step (FilterState α) (Data α) :=
  if done st.tick then .ret
  else
    match recv st.valueStream with
    | none => .block
    | some (v, _, rest) =>
      if !fn v then .emit v ⟨rest, st.tick + 1⟩ else .tau ⟨rest, st.tick + 1⟩

/-- `SkipFn(done, valueStream, fn)`: the trace of its goroutine. -/
def SkipFn {α : Type} (done : Done) (valueStream : Option (Chan α)) (fn : Data α → Bool)
    (fuel : Nat) : Trace (Data α) :=
  run (SkipFn_step done fn) fuel ⟨valueStream, 0⟩

/-- One iteration of the `SkipWhile` goroutine: while the latch `take` is unset it
is set to `!fn(v)` and the element is dropped (`continue`) if it stays unset;
otherwise the element is sent. -/
def SkipWhile_step {α : Type} (done : Done) (fn : Data α → Bool) (st : LatchState α) :
    Step (LatchState α) (Data α) :=
  if done st.tick then .ret
  else
    match recv st.valueStream with
    | none => .block
    | some (v, _, rest) =>
      if !st.take then
        if !(!fn v) then .tau ⟨rest, !fn v, st.tick + 1⟩
        else .emit v ⟨rest, !fn v, st.tick + 1⟩
      else .emit v ⟨rest, st.take, st.tick + 1⟩

/-- `SkipWhile(done, valueStream, fn)`: the trace of its goroutine, which starts
with `take := false`. -/
def SkipWhile {α : Type} (done : Done) (valueStream : Option (Chan α))
    (fn : Data α → Bool) (fuel : Nat) : Trace (Data α) :=
  run (SkipWhile_step done fn) fuel ⟨valueStream, false, 0⟩

/-- One iteration of the `TakeN` goroutine: the loop test `i < num`, then
`select { case <-done: return; case takeStream <- <-valueStream: }`, whose
receive is evaluated on entering the select and does not look at `ok`. -/
def TakeN_step {α : Type} (done : Done) (num : Int) (st : CountState α) :
    Step (CountState α) (Data α) :=
  if st.i < num then
    match recv st.valueStream with
    | none => .block
    | some (v, _, rest) =>
      if done st.tick then .ret else .emit v ⟨rest, st.i + 1, st.tick + 1⟩
  else .ret

/-- `TakeN(done, valueStream, num)`: the trace of its goroutine. -/
def TakeN {α : Type} (done : Done) (valueStream : Option (Chan α)) (num : Int)
    (fuel : Nat) : Trace (Data α) :=
  run (TakeN_step done num) fuel ⟨valueStream, 0, 0⟩

/-- One iteration of the `TakeFn` goroutine:
`select { case <-done: return; case v := <-valueStream: if fn(v) { takeStream <- v } }`. -/
def TakeFn_step {α : Type} (done : Done) (fn : Data α → Bool) (st : FilterState α) :
    Step (FilterState α) (Data α) :=
  if done st.tick then .ret
  else
    match recv st.valueStream with
    | none => .block
    | some (v, _, rest) =>
      if fn v then .emit v ⟨rest, st.tick + 1⟩ else .tau ⟨rest, st.tick + 1⟩

/-- `TakeFn(done, valueStream, fn)`: the trace of its goroutine. -/
def TakeFn {α : Type} (done : Done) (valueStream : Option (Chan α)) (fn : Data α → Bool)
    (fuel : Nat) : Trace (Data α) :=
  run (TakeFn_step done fn) fuel ⟨valueStream, 0⟩

/-- One iteration of the `TakeWhile` goroutine:
`select { case <-done: return; case v := <-valueStream: if !fn(v) { return }; takeStream <- v }`. -/
def TakeWhile_step {α : Type} (done : Done) (fn : Data α → Bool) (st : FilterState α) :
    Step (FilterState α) (Data α) :=
  if done st.tick then .ret
  else
    match recv st.valueStream with
    | none => .block
    | some (v, _, rest) =>
      if !fn v then .ret else .emit v ⟨rest, st.tick + 1⟩

/-- `TakeWhile(done, valueStream, fn)`: the trace of its goroutine. -/
def TakeWhile {α : Type} (done : Done) (valueStream : Option (Chan α))
    (fn : Data α → Bool) (fuel : Nat) : Trace (Data α) :=
  run (TakeWhile_step done fn) fuel ⟨valueStream, 0⟩

/-- A predicate on boxed naturals used in the examples: the value is an even
number (the nil interface is not). -/
def isEven : Data Nat → Bool
  | some n => n % 2 == 0
  | none => false

/-- The predicate that accepts every value, the nil interface included. -/
def always {α : Type} : Data α → Bool := fun _ => true

/-! ## FanOut -/

/-- What an operator does to the output channels its caller supplied.  A channel
is named by a number; two entries of the `out` slice are the same channel when
they carry the same number. -/
inductive Event (α : Type) where
  | send (ch : Nat) (v : Data α)
  | close (ch : Nat)
deriving DecidableEq, Repr

/-- Local state of the `FanOut` goroutine: the input and the index `i`. -/
structure FanOutState (α : Type) where
  input : Option (Chan α)
  i : Nat
deriving DecidableEq, Repr

/-- One iteration of `for v := range in { out[i] <- v; i = (i + 1) % n }` with
`n = len(out)`: indexing out of range and a zero modulus are run-time errors. -/
def FanOut_step {α : Type} (out : List Nat) (st : FanOutState α) :
    Step (FanOutState α) (Event α) :=
  match recv st.input with
  | none => .block
  | some (_, false, _) => .ret
  | some (v, true, rest) =>
    match out[st.i]? with
    | none => .fault
    | some ch =>
      if out.length = 0 then .fault
      else .emit (.send ch v) ⟨rest, (st.i + 1) % out.length⟩

/-- The deferred loop `for _, c := range out { close(c) }`, given the channels
closed so far: closing a channel a second time is a run-time error, which ends
the loop. -/
def closeAll {α : Type} : List Nat → List Nat → Trace (Event α)
  | _, [] => ⟨[], .returned⟩
  | closedSoFar, c :: cs =>
    if c ∈ closedSoFar then ⟨[], .faulted⟩
    else ⟨.close c :: (closeAll (c :: closedSoFar) cs : Trace (Event α)).events,
          (closeAll (c :: closedSoFar) cs : Trace (Event α)).status⟩

/-- `FanOut(in, out...)`: the trace of its goroutine.  The deferred closes run when
the loop ends, by exhaustion of the input or by a run-time error. -/
def FanOut {α : Type} (input : Option (Chan α)) (out : List Nat) (fuel : Nat) :
    Trace (Event α) :=
  match run (FanOut_step out) fuel (⟨input, 0⟩ : FanOutState α) with
  | ⟨events, .returned⟩ =>
    ⟨events ++ (closeAll [] out : Trace (Event α)).events,
     (closeAll [] out : Trace (Event α)).status⟩
  | ⟨events, .faulted⟩ => ⟨events ++ (closeAll [] out : Trace (Event α)).events, .faulted⟩
  | tr => tr

/-- The sends of a trace, in order, as pairs of channel and value. -/
def sendsOf {α : Type} : List (Event α) → List (Nat × Data α)
  | [] => []
  | .send ch v :: es => (ch, v) :: sendsOf es
  | .close _ :: es => sendsOf es

/-- The values a trace delivers to the channel `ch`, in order. -/
def received {α : Type} (ch : Nat) (events : List (Event α)) : List (Data α) :=
  ((sendsOf events).filter (fun e => e.1 == ch)).map Prod.snd

/-! ## Tee -/

/-- One iteration of the outer loop of `Tee`,
`for v := range in { for i := 0; i < len(out); i++ { out[i] <- v } }`:
the sends of one element to the outputs, in index order. -/
def Tee_step {α : Type} (out : List Nat) (input : Option (Chan α)) :
    Step (Option (Chan α)) (List (Event α)) :=
  match recv input with
  | none => .block
  | some (_, false, _) => .ret
  | some (v, true, rest) => .emit (out.map (fun ch => Event.send ch v)) rest

/-- `Tee(in, out...)`: the trace of its goroutine.  The deferred loop
`for i := 0; i < len(out); i++ { close(out[i]) }` runs when the range loop ends. -/
def Tee {α : Type} (input : Option (Chan α)) (out : List Nat) (fuel : Nat) :
    Trace (Event α) :=
  match run (Tee_step out) fuel input with
  | ⟨batches, .returned⟩ =>
    ⟨batches.flatten ++ (closeAll [] out : Trace (Event α)).events,
     (closeAll [] out : Trace (Event α)).status⟩
  | ⟨batches, status⟩ => ⟨batches.flatten, status⟩

/-- The close events of a trace, in order. -/
def closesOf {α : Type} : List (Event α) → List Nat
  | [] => []
  | .send _ _ :: es => closesOf es
  | .close ch :: es => ch :: closesOf es

/-! ## OrDone and Flat -/

/-- Local state of the `OrDone` goroutine: the source `c` and the number of
selects executed so far. -/
structure OrDoneState (α : Type) where
  c : Option (Chan α)
  tick : Nat
deriving DecidableEq, Repr

/-- One iteration of the `OrDone` goroutine.  The outer select returns on `done`
or receives `v, ok := <-c` and returns when `ok` is false; the inner select
`select { case valStream <- v: case <-done: }` either forwards `v` or, on `done`,
drops it and falls through to the next iteration. -/
def OrDone_step {α : Type} (done : Done) (st : OrDoneState α) :
    Step (OrDoneState α) (Data α) :=
  if done st.tick then .ret
  else
    match recv st.c with
    | none => .block
    | some (_, false, _) => .ret
    | some (v, true, rest) =>
      if done (st.tick + 1) then .tau ⟨rest, st.tick + 2⟩
      else .emit v ⟨rest, st.tick + 2⟩

/-- `OrDone(done, c)`: the trace of its goroutine. -/
def OrDone {α : Type} (done : Done) (c : Option (Chan α)) (fuel : Nat) :
    Trace (Data α) :=
  run (OrDone_step done) fuel ⟨c, 0⟩

/-- A number of iterations within which the `OrDone` goroutine on `c` has returned
or blocked: every iteration that goes on takes one pending value of `c`. -/
def relayFuel {α : Type} : Option (Chan α) → Nat
  | none => 1
  | some c => c.pending.length + 1

/-- Local state of the `Flat` goroutine: the outer source, the
`range OrDone(done, stream)` in progress if any (what the relay still delivers
and how it then stands), the number of selects executed so far, and the number
of relays started so far. -/
structure FlatState (α : Type) where
  chanStream : Option (Chan (Chan α))
  relay : Option (Trace (Data α))
  tick : Nat
  round : Nat
deriving DecidableEq, Repr

/-- One iteration of the `Flat` goroutine, of its outer loop when no range is in
progress and of its inner loop otherwise.  The outer select receives the next
stream (returning when `ok` is false) or returns on `done`, and starts
`OrDone(done, stream)`; the inner loop forwards the next value of the relay, or
drops it when its select takes `done`; the range ends when the relay has closed
its output.  `relayDone k` is the cancellation signal as the `k`-th relay meets
it. -/
def Flat_step {α : Type} (done : Done) (relayDone : Nat → Done) (st : FlatState α) :
    Step (FlatState α) (Data α) :=
  match st.relay with
  | none =>
    if done st.tick then .ret
    else
      match recv st.chanStream with
      | none => .block
      | some (_, false, _) => .ret
      | some (stream, true, rest) =>
        .tau ⟨rest, some (OrDone (relayDone st.round) stream (relayFuel stream)),
              st.tick + 1, st.round + 1⟩
  | some ⟨v :: vs, how⟩ =>
    if done st.tick then .tau ⟨st.chanStream, some ⟨vs, how⟩, st.tick + 1, st.round⟩
    else .emit v ⟨st.chanStream, some ⟨vs, how⟩, st.tick + 1, st.round⟩
  | some ⟨[], .returned⟩ => .tau ⟨st.chanStream, none, st.tick, st.round⟩
  | some ⟨[], _⟩ => .block

/-- `Flat(done, chanStream)`: the trace of its goroutine. -/
def Flat {α : Type} (done : Done) (relayDone : Nat → Done)
    (chanStream : Option (Chan (Chan α))) (fuel : Nat) : Trace (Data α) :=
  run (Flat_step done relayDone) fuel ⟨chanStream, none, 0, 0⟩

/-- The cancellation signal that is taken at the select numbered `k` and at no
other. -/
def doneOnlyAt (k : Nat) : Done := fun t => t == k

/-- The cancellation signal that is taken at every select from the one numbered
`k` on, and at none before. -/
def doneFrom (k : Nat) : Done := fun t => decide (k ≤ t)

/-! ## Final states -/

/-- The local state a goroutine has reached after at most `fuel` iterations: the
state reached when the fuel ran out, or the state on entry to the iteration in
which it returned, blocked or faulted.  What that last iteration itself did
before leaving (a value it received and then dropped on taking `<-done`, or the
element that failed the test of `TakeWhile`) is not recorded: the state is the
final one exactly when the last iteration leaves without receiving, as the
loop test of `TakeN` and every iteration of `FanOut` that ends its loop do. -/
def runState {σ ε : Type} (step : σ → Step σ ε) : Nat → σ → σ
  | 0, st => st
  | n + 1, st =>
    match step st with
    | .emit _ next => runState step n next
    | .tau next => runState step n next
    | .ret => st
    | .block => st
    | .fault => st

/-! ## Merge -/

/-- One relay goroutine `output(c)` of `Merge`: still in its loop
`for n := range c { out <- n }`, or past `wg.Done()`. -/
inductive Relay (α : Type) where
  | ranging (c : Option (Chan α))
  | finished
deriving DecidableEq, Repr

/-- What happens on the shared output `out` of `Merge`: a relay sends a value
(tagged with the position of its input in `cs`), or the closer closes `out`. -/
inductive MergeEvent (α : Type) where
  | send (src : Nat) (v : Data α)
  | close
deriving DecidableEq, Repr

/-- The goroutines of one `Merge` call: the relays, the counter of the wait group
`wg`, and whether the closer has closed `out`. -/
structure MergeState (α : Type) where
  relays : List (Relay α)
  wg : Nat
  closed : Bool
deriving DecidableEq, Repr

/-- The relay `j` takes one step: one iteration of its range loop, or, when its
input is closed and drained, `wg.Done()`.  A relay that is blocked on its input
or has finished makes no move. -/
def Merge_output {α : Type} (st : MergeState α) (j : Nat) :
    MergeState α × List (MergeEvent α) :=
  match st.relays[j]? with
  | some (.ranging c) =>
    match recv c with
    | none => (st, [])
    | some (v, true, rest) =>
      (⟨st.relays.set j (.ranging rest), st.wg, st.closed⟩, [.send j v])
    | some (_, false, _) => (⟨st.relays.set j .finished, st.wg - 1, st.closed⟩, [])
  | _ => (st, [])

/-- The closer goroutine `wg.Wait(); close(out)` takes one step: it closes `out`
once the counter is zero, and makes no move before that or after it. -/
def Merge_closer {α : Type} (st : MergeState α) : MergeState α × List (MergeEvent α) :=
  if st.wg = 0 ∧ st.closed = false then (⟨st.relays, st.wg, true⟩, [.close])
  else (st, [])

/-- The goroutine the scheduler picks takes one step: the relay `j` when `j` is
the position of a relay, the closer otherwise. -/
def Merge_step {α : Type} (st : MergeState α) (j : Nat) :
    MergeState α × List (MergeEvent α) :=
  if j < st.relays.length then Merge_output st j else Merge_closer st

/-- Run the goroutines of `Merge` along a schedule, the list of the goroutines
that move, in order. -/
def Merge_run {α : Type} (st : MergeState α) : List Nat → MergeState α × List (MergeEvent α)
  | [] => (st, [])
  | j :: js =>
    ((Merge_run (Merge_step st j).1 js).1,
     (Merge_step st j).2 ++ (Merge_run (Merge_step st j).1 js).2)

/-- `Merge(cs...)`: `wg.Add(len(cs))`, one relay per input, and the closer, run
along a schedule; the result is the final state and what happened on `out`. -/
def Merge {α : Type} (cs : List (Option (Chan α))) (sched : List Nat) :
    MergeState α × List (MergeEvent α) :=
  Merge_run ⟨cs.map Relay.ranging, cs.length, false⟩ sched

/-- The values a consumer reads from `out`, in order. -/
def valuesOf {α : Type} : List (MergeEvent α) → List (Data α)
  | [] => []
  | .send _ v :: es => v :: valuesOf es
  | .close :: es => valuesOf es

/-- The values on `out` that the relay of input `j` sent, in order. -/
def fromInput {α : Type} (j : Nat) : List (MergeEvent α) → List (Data α)
  | [] => []
  | .send i v :: es => if i = j then v :: fromInput j es else fromInput j es
  | .close :: es => fromInput j es

/-- The number of times `out` is closed in a trace. -/
def closeCount {α : Type} : List (MergeEvent α) → Nat
  | [] => 0
  | .send _ _ :: es => closeCount es
  | .close :: es => closeCount es + 1

/-- The inputs of `Merge` for the finite sequences `ins`: one channel per sequence,
which delivers it and is then closed. -/
def closedInputs {α : Type} (ins : List (List (Data α))) : List (Option (Chan α)) :=
  ins.map (fun s => some ⟨s, true⟩)

/-- What a relay of `Merge` has still to send. -/
def Relay.rest {α : Type} : Relay α → List (Data α)
  | .ranging (some c) => c.pending
  | _ => []

/-- Whether a relay of `Merge` is still in its range loop. -/
def Relay.isRanging {α : Type} : Relay α → Bool
  | .ranging _ => true
  | .finished => false

/-- Whether a relay of `Merge` has finished or reads a channel that is closed
after its pending values. -/
def Relay.onClosedInput {α : Type} : Relay α → Bool
  | .ranging (some c) => c.closed
  | .ranging none => false
  | .finished => true

/-- The number of steps a relay on a closed input takes until it has finished:
one per pending value and one for `wg.Done()`. -/
def Relay.work {α : Type} : Relay α → Nat
  | .ranging (some c) => c.pending.length + 1
  | .ranging none => 1
  | .finished => 0

/-- What the relay at position `i` has still to send (nothing when there is no
such relay). -/
def restAt {α : Type} (st : MergeState α) (i : Nat) : List (Data α) :=
  match st.relays[i]? with
  | some r => r.rest
  | none => []

/-- The steps the relay at position `i` has still to take (none when there is no
such relay). -/
def workAt {α : Type} (st : MergeState α) (i : Nat) : Nat :=
  match st.relays[i]? with
  | some r => r.work
  | none => 0

/-- The states of `Merge` on closed inputs that a run can reach: the counter of
the wait group is the number of relays still in their loop, every relay has
finished or reads a closed channel, and `out` is closed only when the counter
is zero. -/
def Merge_inv {α : Type} (st : MergeState α) : Prop :=
  st.wg = st.relays.countP Relay.isRanging ∧
  (∀ r ∈ st.relays, r.onClosedInput = true) ∧
  (st.closed = true → st.wg = 0)

/-- A combining function used in the examples: it keeps the accumulator. -/
def keepFirst : Data Nat → Data Nat → Data Nat := fun acc _ => acc

/-! ## The operators built on reflect.Select -/

/-- The outcome of one `reflect.Select` over send cases. -/
inductive Selected where
  | chose (k : Nat)
  | blocks
  | faults
deriving DecidableEq, Repr

/-- The call `reflect.Select(cases)` on send cases that all carry
`reflect.ValueOf(v)`, against consumers that are always ready.  `enabled` lists
the positions of the cases whose `Chan` is a valid value (a case whose `Chan` is
the zero `Value` is ignored) and `pick` resolves the choice among them.  With no
enabled case the select blocks for ever.  `reflect.ValueOf(nil)` is the zero
`Value`, and a send case with a valid `Chan` and a zero `Send` makes
`reflect.Select` panic; otherwise one enabled case is chosen. -/
def reflectSelect {α : Type} (pick : Nat) (enabled : List Nat) (v : Data α) : Selected :=
  match enabled with
  | [] => .blocks
  | e :: es =>
    match v with
    | none => .faults
    | some _ => .chose ((e :: es).getD (pick % (e :: es).length) e)

/-- Local state of the `FanOutReflect` goroutine: the input `ch` and the number of
selects executed so far. -/
structure FanOutReflectState (α : Type) where
  ch : Option (Chan α)
  tick : Nat
deriving DecidableEq, Repr

/-- One iteration of the loop of `FanOutReflect`: every case gets
`Send = reflect.ValueOf(v)`, all cases keep the channel set before the loop, and
one `reflect.Select` sends `v` on the chosen output.  `choice t` resolves the
`t`-th select. -/
def FanOutReflect_step {α : Type} (choice : Nat → Nat) (out : List Nat)
    (st : FanOutReflectState α) : Step (FanOutReflectState α) (Event α) :=
  match recv st.ch with
  | none => .block
  | some (_, false, _) => .ret
  | some (v, true, rest) =>
    match reflectSelect (choice st.tick) (List.range out.length) v with
    | .blocks => .block
    | .faults => .fault
    | .chose k =>
      match out[k]? with
      | none => .fault
      | some c => .emit (.send c v) ⟨rest, st.tick + 1⟩

/-- `FanOutReflect(ch, out...)`: the trace of its goroutine, with the deferred
closes of the outputs. -/
def FanOutReflect {α : Type} (choice : Nat → Nat) (ch : Option (Chan α)) (out : List Nat)
    (fuel : Nat) : Trace (Event α) :=
  match run (FanOutReflect_step choice out) fuel (⟨ch, 0⟩ : FanOutReflectState α) with
  | ⟨events, .returned⟩ =>
    ⟨events ++ (closeAll [] out : Trace (Event α)).events,
     (closeAll [] out : Trace (Event α)).status⟩
  | ⟨events, .faulted⟩ => ⟨events ++ (closeAll [] out : Trace (Event α)).events, .faulted⟩
  | tr => tr

/-- Local state of the `TeeReflect` goroutine: the input; the element being
delivered, if any, with the positions of the cases whose `Chan` is still set
and the number of iterations of the inner loop `for _ = range cases` still to
run; and the number of selects executed so far. -/
structure TeeReflectState (α : Type) where
  input : Option (Chan α)
  cur : Option (Data α × List Nat × Nat)
  tick : Nat
deriving DecidableEq, Repr

/-- One iteration of the `TeeReflect` goroutine.  With no inner loop in progress
it is an iteration of `for v := range in`: every case gets its channel `out[i]`
and `Send = reflect.ValueOf(v)`.  Otherwise it is an iteration of the inner
loop: `reflect.Select` sends `v` on the chosen output and that case gets the
zero `Value` as its `Chan`. -/
def TeeReflect_step {α : Type} (choice : Nat → Nat) (out : List Nat)
    (st : TeeReflectState α) : Step (TeeReflectState α) (Event α) :=
  match st.cur with
  | some (v, enabled, left + 1) =>
    match reflectSelect (choice st.tick) enabled v with
    | .blocks => .block
    | .faults => .fault
    | .chose k =>
      match out[k]? with
      | none => .fault
      | some c => .emit (.send c v) ⟨st.input, some (v, enabled.erase k, left), st.tick + 1⟩
  | _ =>
    match recv st.input with
    | none => .block
    | some (_, false, _) => .ret
    | some (v, true, rest) =>
      .tau ⟨rest, some (v, List.range out.length, out.length), st.tick⟩

/-- `TeeReflect(in, out...)`: the trace of its goroutine, with the deferred closes
of the outputs. -/
def TeeReflect {α : Type} (choice : Nat → Nat) (input : Option (Chan α)) (out : List Nat)
    (fuel : Nat) : Trace (Event α) :=
  match run (TeeReflect_step choice out) fuel (⟨input, none, 0⟩ : TeeReflectState α) with
  | ⟨events, .returned⟩ =>
    ⟨events ++ (closeAll [] out : Trace (Event α)).events,
     (closeAll [] out : Trace (Event α)).status⟩
  | ⟨events, .faulted⟩ => ⟨events ++ (closeAll [] out : Trace (Event α)).events, .faulted⟩
  | tr => tr

/-- A resolution of the selects used in the examples: the `t`-th select picks the
`t`-th of its enabled cases, counted cyclically. -/
def pickByTick : Nat → Nat := fun t => t

/-! ## Theorems -/

theorem run_zero {σ ε : Type} (step : σ → Step σ ε) (st : σ) :
    run step 0 st = ⟨[], .running⟩ := rfl

theorem run_emit {σ ε : Type} (step : σ → Step σ ε) (n : Nat) (st next : σ) (e : ε)
    (h : step st = .emit e next) :
    run step (n + 1) st = ⟨e :: (run step n next).events, (run step n next).status⟩ := by
  simp [run, h]

theorem run_tau {σ ε : Type} (step : σ → Step σ ε) (n : Nat) (st next : σ)
    (h : step st = .tau next) : run step (n + 1) st = run step n next := by
  simp [run, h]

theorem run_ret {σ ε : Type} (step : σ → Step σ ε) (n : Nat) (st : σ)
    (h : step st = .ret) : run step (n + 1) st = ⟨[], .returned⟩ := by
  simp [run, h]

theorem run_block {σ ε : Type} (step : σ → Step σ ε) (n : Nat) (st : σ)
    (h : step st = .block) : run step (n + 1) st = ⟨[], .blocked⟩ := by
  simp [run, h]

theorem Map_run_closed {α β : Type} (T : Data α → Data β) (s : List (Data α)) (m : Nat) :
    run (Map_step T) (s.length + 1 + m) (some ⟨s, true⟩) = ⟨s.map T, .returned⟩ := by
  induction s with
  | nil => rw [show ([] : List (Data α)).length + 1 + m = m + 1 by simp; omega]
           exact run_ret (Map_step T) _ (some ⟨[], true⟩) rfl
  | cons v vs ih =>
    rw [show (v :: vs).length + 1 + m = (vs.length + 1 + m) + 1 by simp; omega]
    rw [run_emit (Map_step T) _ (some ⟨v :: vs, true⟩) (some ⟨vs, true⟩) (T v) rfl, ih]
    rfl

/-- C1: for every finite input sequence `s` delivered on a non-nil channel that is
then closed, and every transformer `T`, the consumer of `Map(in, T)` reads
exactly `s` mapped through `T`, in order, and then sees the output closed; the
output has the length of `s` and its `i`-th element is `T (s[i])`. -/
theorem C1_Map_maps_in_order {α β : Type} (T : Data α → Data β) (s : List (Data α)) :
    (∀ m, readAll (Map (some ⟨s, true⟩) T) (s.length + 1 + m) = ⟨s.map T, .returned⟩) ∧
    (s.map T).length = s.length ∧
    (∀ i : Nat, (s.map T)[i]? = (s[i]?).map T) := by
  refine ⟨fun m => ?_, by simp, fun i => by simp⟩
  simp only [Map, readAll]
  exact Map_run_closed T s m

/-- C2: with a nil input `Map` returns the nil channel, not the channel it closed:
a consumer reading the result blocks for ever and never observes the end of the
sequence, whatever the transformer. -/
theorem C2_Map_nil_returns_nil_channel {α β : Type} (T : Data α → Data β) (fuel : Nat) :
    Map (none : Option (Chan α)) T = none ∧
    readAll (Map (none : Option (Chan α)) T) fuel = ⟨[], .blocked⟩ ∧
    readAll (Map (none : Option (Chan α)) T) fuel ≠ ⟨[], .returned⟩ := by
  refine ⟨rfl, rfl, ?_⟩
  simp [Map, readAll]

theorem Reduce_range_closed {α : Type} (fn : Data α → Data α → Data α)
    (bs : List (Data α)) (acc : Data α) (k : Nat) :
    Reduce_range fn true bs acc k = .ret (bs.foldl fn acc) (k + bs.length) := by
  induction bs generalizing acc k with
  | nil => simp [Reduce_range]
  | cons b bs ih =>
    simp only [Reduce_range, List.foldl_cons, List.length_cons]
    rw [ih]
    congr 1
    omega

/-- C3: for every non-empty finite input `[a, b1, ..., bk]` that is delivered and
then closed, `Reduce` returns the left fold of `fn` over `b1..bk` started from
the first element `a` (calling `fn` once per later element); for the
one-element input `[a]` it returns `a` and makes no call of `fn`. -/
theorem C3_Reduce_left_fold {α : Type} (fn : Data α → Data α → Data α)
    (a : Data α) (bs : List (Data α)) :
    Reduce (some ⟨a :: bs, true⟩) fn = .ret (bs.foldl fn a) bs.length ∧
    Reduce (some ⟨[a], true⟩) fn = .ret a 0 := by
  constructor
  · simp only [Reduce, recv]
    rw [Reduce_range_closed]
    simp
  · simp [Reduce, recv, Reduce_range]

/-! ### TakeN -/

theorem TakeN_run_closed {α : Type} (num : Int) (k : Nat) :
    ∀ (s : List (Data α)) (i : Int) (t m : Nat), (num - i).toNat = k →
      run (TakeN_step neverDone num) (k + 1 + m) ⟨some ⟨s, true⟩, i, t⟩ =
        ⟨s.take k ++ List.replicate (k - s.length) none, .returned⟩ := by
  induction k with
  | zero =>
    intro s i t m h
    have hi : ¬ i < num := by omega
    rw [show 0 + 1 + m = m + 1 by omega]
    simp [run, TakeN_step, hi]
  | succ k ih =>
    intro s i t m h
    have hi : i < num := by omega
    have hk : (num - (i + 1)).toNat = k := by omega
    rw [show k + 1 + 1 + m = (k + 1 + m) + 1 by omega]
    cases s with
    | nil =>
      have := ih [] (i + 1) (t + 1) m hk
      simp only [List.take_nil, List.length_nil, Nat.sub_zero, List.nil_append] at this
      simp [run, TakeN_step, hi, recv, neverDone, this, List.replicate_succ]
    | cons v vs =>
      have := ih vs (i + 1) (t + 1) m hk
      simp [run, TakeN_step, hi, recv, neverDone, this]

/-- C4: on a source that delivers `s` and is then closed, with a cancellation
signal that never fires, `TakeN` sends `num` values whenever `num >= 0`: the
first `min(num, len(s))` elements of `s`, then one nil for every count beyond
the end of the source, and only then closes its output.  For the source `[1]`
and `num = 3` the consumer reads `[1, nil, nil]`, three values and not one. -/
theorem C4_TakeN_pads_with_nil_past_source :
    (∀ (α : Type) (s : List (Data α)) (num : Int) (m : Nat),
      TakeN neverDone (some ⟨s, true⟩) num (num.toNat + 1 + m) =
        ⟨s.take num.toNat ++ List.replicate (num.toNat - s.length) none, .returned⟩) ∧
    TakeN neverDone (some ⟨[some 1], true⟩) 3 4 =
      (⟨[some 1, none, none], .returned⟩ : Trace (Data Nat)) ∧
    (TakeN neverDone (some ⟨[(some 1 : Data Nat)], true⟩) 3 4).events.length ≠
      min 3 [(some 1 : Data Nat)].length := by
  refine ⟨fun α s num m => ?_, by decide, by decide⟩
  exact TakeN_run_closed num num.toNat s 0 0 m (by simp)

/-! ### SkipN -/

theorem SkipN_run_skip {α : Type} (num : Int) (k : Nat) :
    ∀ (s : List (Data α)) (i : Int) (t n : Nat), (num - i).toNat = k →
      run (SkipN_step neverDone num) (k + n) ⟨some ⟨s, true⟩, i, t⟩ =
        run (SkipN_step neverDone num) n ⟨some ⟨s.drop k, true⟩, i + k, t + k⟩ := by
  induction k with
  | zero => intro s i t n _; simp
  | succ k ih =>
    intro s i t n h
    have hi : i < num := by omega
    have hk : (num - (i + 1)).toNat = k := by omega
    rw [show k + 1 + n = (k + n) + 1 by omega]
    have e1 : i + 1 + (k : Int) = i + ((k + 1 : Nat) : Int) := by push_cast; ring
    have e2 : t + 1 + k = t + (k + 1) := by omega
    cases s with
    | nil =>
      have := ih [] (i + 1) (t + 1) n hk
      rw [e1, e2] at this
      simp only [List.drop_nil] at this
      simp [run, SkipN_step, hi, recv, neverDone, this]
    | cons v vs =>
      have := ih vs (i + 1) (t + 1) n hk
      rw [e1, e2] at this
      simp [run, SkipN_step, hi, recv, neverDone, this]

theorem SkipN_run_forward {α : Type} (num : Int) (i : Int) (hi : ¬ i < num)
    (s : List (Data α)) :
    ∀ (cl : Bool) (t n : Nat),
      run (SkipN_step neverDone num) (s.length + n) ⟨some ⟨s, cl⟩, i, t⟩ =
        ⟨s ++ (run (SkipN_step neverDone num) n
                ⟨some ⟨([] : List (Data α)), cl⟩, i, t + s.length⟩).events,
         (run (SkipN_step neverDone num) n
                ⟨some ⟨([] : List (Data α)), cl⟩, i, t + s.length⟩).status⟩ := by
  induction s with
  | nil => intro cl t n; simp
  | cons v vs ih =>
    intro cl t n
    rw [show (v :: vs).length + n = (vs.length + n) + 1 by simp; omega]
    have := ih cl (t + 1) n
    rw [show t + 1 + vs.length = t + (v :: vs).length by simp; omega] at this
    simp [run, SkipN_step, recv, neverDone, hi, this]

theorem SkipN_run_drained_closed {α : Type} (num : Int) (i : Int) (hi : ¬ i < num)
    (m : Nat) :
    ∀ t : Nat, run (SkipN_step neverDone num) m ⟨some ⟨([] : List (Data α)), true⟩, i, t⟩ =
      ⟨List.replicate m none, .running⟩ := by
  induction m with
  | zero => intro t; simp [run]
  | succ m ih => intro t; simp [run, SkipN_step, recv, neverDone, hi, ih, List.replicate_succ]

theorem SkipN_run_closed {α : Type} (s : List (Data α)) (num : Int) (m : Nat) :
    SkipN neverDone (some ⟨s, true⟩) num (num.toNat + ((s.drop num.toNat).length + m)) =
      ⟨s.drop num.toNat ++ List.replicate m none, .running⟩ := by
  unfold SkipN
  rw [SkipN_run_skip num num.toNat s 0 0 _ (by simp)]
  have hi : ¬ (0 + (num.toNat : Int)) < num := by omega
  rw [SkipN_run_forward num _ hi, SkipN_run_drained_closed num _ hi]

/-- C5: on a source that delivers `s` and is then closed, with a cancellation
signal that never fires, `SkipN` discards the first `num` receives and forwards
`s[num:]`, but then keeps forwarding the nil that every receive on the closed
source yields: after any `m` further iterations it has sent `m` extra nils and
its output is still open.  For the source `[1, 2]` and `num = 1` it has sent
`[2, nil, nil, nil]` after five iterations. -/
theorem C5_SkipN_forwards_nil_past_source :
    (∀ (α : Type) (s : List (Data α)) (num : Int) (m : Nat),
      SkipN neverDone (some ⟨s, true⟩) num (num.toNat + ((s.drop num.toNat).length + m)) =
        ⟨s.drop num.toNat ++ List.replicate m none, .running⟩) ∧
    SkipN neverDone (some ⟨[some 1, some 2], true⟩) 1 5 =
      (⟨[some 2, none, none, none], .running⟩ : Trace (Data Nat)) := by
  refine ⟨fun α s num m => SkipN_run_closed s num m, by decide⟩

/-! ### TakeWhile -/

theorem TakeWhile_run_all_pass {α : Type} (fn : Data α → Bool) (s : List (Data α))
    (hs : ∀ v ∈ s, fn v = true) :
    ∀ (cl : Bool) (t n : Nat),
      run (TakeWhile_step neverDone fn) (s.length + n) ⟨some ⟨s, cl⟩, t⟩ =
        ⟨s ++ (run (TakeWhile_step neverDone fn) n ⟨some ⟨[], cl⟩, t + s.length⟩).events,
         (run (TakeWhile_step neverDone fn) n ⟨some ⟨[], cl⟩, t + s.length⟩).status⟩ := by
  induction s with
  | nil => intro cl t n; simp
  | cons v vs ih =>
    intro cl t n
    rw [show (v :: vs).length + n = (vs.length + n) + 1 by simp; omega]
    have hv : fn v = true := hs v (by simp)
    have := ih (fun w hw => hs w (by simp [hw])) cl (t + 1) n
    rw [show t + 1 + vs.length = t + (v :: vs).length by simp; omega] at this
    simp [run, TakeWhile_step, recv, neverDone, hv, this]

theorem TakeWhile_run_drained_nil_accepted {α : Type} (fn : Data α → Bool)
    (hnil : fn none = true) (m : Nat) :
    ∀ t : Nat, run (TakeWhile_step neverDone fn) m ⟨some ⟨([] : List (Data α)), true⟩, t⟩ =
      ⟨List.replicate m none, .running⟩ := by
  induction m with
  | zero => intro t; simp [run]
  | succ m ih =>
    intro t
    simp [run, TakeWhile_step, recv, neverDone, hnil, ih, List.replicate_succ]

theorem TakeWhile_run_never_closes {α : Type} (fn : Data α → Bool) (s : List (Data α))
    (hs : ∀ v ∈ s, fn v = true) (hnil : fn none = true) (m : Nat) :
    TakeWhile neverDone (some ⟨s, true⟩) fn (s.length + m) =
      ⟨s ++ List.replicate m none, .running⟩ := by
  unfold TakeWhile
  rw [TakeWhile_run_all_pass fn s hs, TakeWhile_run_drained_nil_accepted fn hnil]

theorem TakeWhile_run_closes {α : Type} (fn : Data α → Bool) (s : List (Data α))
    (h : (∃ v ∈ s, fn v = false) ∨ fn none = false) :
    ∀ (t m : Nat),
      run (TakeWhile_step neverDone fn) ((s.takeWhile fn).length + 1 + m) ⟨some ⟨s, true⟩, t⟩ =
        ⟨s.takeWhile fn, .returned⟩ := by
  induction s with
  | nil =>
    intro t m
    have hnil : fn none = false := by
      rcases h with ⟨v, hv, _⟩ | h
      · simp at hv
      · exact h
    rw [show (List.takeWhile fn ([] : List (Data α))).length + 1 + m = m + 1 by simp; omega]
    simp [run, TakeWhile_step, recv, neverDone, hnil]
  | cons v vs ih =>
    intro t m
    by_cases hv : fn v = true
    · have h2 : (∃ w ∈ vs, fn w = false) ∨ fn none = false := by
        rcases h with ⟨w, hw, hfw⟩ | h
        · left
          rcases List.mem_cons.mp hw with rfl | hw
          · rw [hv] at hfw; cases hfw
          · exact ⟨w, hw, hfw⟩
        · exact Or.inr h
      have := ih h2 (t + 1) m
      rw [List.takeWhile_cons_of_pos hv]
      rw [show (v :: List.takeWhile fn vs).length + 1 + m =
        ((List.takeWhile fn vs).length + 1 + m) + 1 by simp; omega]
      simp [run, TakeWhile_step, recv, neverDone, hv, this]
    · rw [List.takeWhile_cons_of_neg hv]
      rw [show ([] : List (Data α)).length + 1 + m = m + 1 by simp; omega]
      simp [run, TakeWhile_step, recv, neverDone, hv]

/-- C6: with a predicate that holds for the nil interface as well (here the
predicate that accepts everything), on a source that delivers `s` and is then
closed, and a cancellation signal that never fires, `TakeWhile` forwards all of
`s` and then goes on forwarding the nil that every receive on the closed source
yields: after `m` further iterations it has sent `m` extra nils and has not
closed its output.  For the source `[1, 2]` it has sent `[1, 2, nil, nil]`
after four iterations, where the longest accepted leading run is `[1, 2]`. -/
theorem C6_TakeWhile_forwards_nil_past_source :
    (∀ (α : Type) (s : List (Data α)) (m : Nat),
      TakeWhile neverDone (some ⟨s, true⟩) always (s.length + m) =
        ⟨s ++ List.replicate m none, .running⟩) ∧
    TakeWhile neverDone (some ⟨[some 1, some 2], true⟩) always 4 =
      (⟨[some 1, some 2, none, none], .running⟩ : Trace (Data Nat)) ∧
    [some 1, some 2].takeWhile always = [(some 1 : Data Nat), some 2] := by
  refine ⟨fun α s m => ?_, by decide, by decide⟩
  exact TakeWhile_run_never_closes always s (fun _ _ => rfl) rfl m

/-! ### SkipWhile -/

theorem SkipWhile_run_latched {α : Type} (fn : Data α → Bool) (s : List (Data α)) :
    ∀ (cl : Bool) (t n : Nat),
      run (SkipWhile_step neverDone fn) (s.length + n) ⟨some ⟨s, cl⟩, true, t⟩ =
        ⟨s ++ (run (SkipWhile_step neverDone fn) n
                ⟨some ⟨[], cl⟩, true, t + s.length⟩).events,
         (run (SkipWhile_step neverDone fn) n
                ⟨some ⟨[], cl⟩, true, t + s.length⟩).status⟩ := by
  induction s with
  | nil => intro cl t n; simp
  | cons v vs ih =>
    intro cl t n
    rw [show (v :: vs).length + n = (vs.length + n) + 1 by simp; omega]
    have := ih cl (t + 1) n
    rw [show t + 1 + vs.length = t + (v :: vs).length by simp; omega] at this
    simp [run, SkipWhile_step, recv, neverDone, this]

theorem SkipWhile_run_consume {α : Type} (fn : Data α → Bool) (s : List (Data α)) :
    ∀ (cl : Bool) (t n : Nat),
      run (SkipWhile_step neverDone fn) (s.length + n) ⟨some ⟨s, cl⟩, false, t⟩ =
        ⟨s.dropWhile fn ++ (run (SkipWhile_step neverDone fn) n
                ⟨some ⟨[], cl⟩, s.any (fun v => !fn v), t + s.length⟩).events,
         (run (SkipWhile_step neverDone fn) n
                ⟨some ⟨[], cl⟩, s.any (fun v => !fn v), t + s.length⟩).status⟩ := by
  induction s with
  | nil => intro cl t n; simp
  | cons v vs ih =>
    intro cl t n
    rw [show (v :: vs).length + n = (vs.length + n) + 1 by simp; omega]
    by_cases hv : fn v = true
    · have := ih cl (t + 1) n
      rw [show t + 1 + vs.length = t + (v :: vs).length by simp; omega] at this
      simp [run, SkipWhile_step, recv, neverDone, hv, this, List.dropWhile_cons]
    · have := SkipWhile_run_latched fn vs cl (t + 1) n
      rw [show t + 1 + vs.length = t + (v :: vs).length by simp; omega] at this
      simp [run, SkipWhile_step, recv, neverDone, hv, this, List.dropWhile_cons]

theorem SkipWhile_run_drained_open {α : Type} (fn : Data α → Bool) (take : Bool)
    (m t : Nat) :
    run (SkipWhile_step neverDone fn) (m + 1) ⟨some ⟨([] : List (Data α)), false⟩, take, t⟩ =
      ⟨[], .blocked⟩ := by
  simp [run, SkipWhile_step, recv, neverDone]

/-- With a cancellation signal that never fires, once the `len(s)` elements of a
source sequence `s` have been received, `SkipWhile` has forwarded exactly `s`
without its longest leading run of elements accepted by `fn`, in order, later
accepted elements included; when nothing follows `s` on a source that stays
open, that is all it ever forwards.  Once the latch `take` is set, an
iteration forwards the received element whatever it is, does not call `fn`,
and leaves the latch set. -/
theorem SkipWhile_drops_leading_run {α : Type} (fn : Data α → Bool) :
    (∀ (s : List (Data α)) (cl : Bool),
      SkipWhile neverDone (some ⟨s, cl⟩) fn s.length = ⟨s.dropWhile fn, .running⟩) ∧
    (∀ (s : List (Data α)) (m : Nat),
      SkipWhile neverDone (some ⟨s, false⟩) fn (s.length + (m + 1)) =
        ⟨s.dropWhile fn, .blocked⟩) ∧
    (∀ (done : Done) (c : Option (Chan α)) (t : Nat),
      SkipWhile_step done fn ⟨c, true, t⟩ =
        if done t then .ret
        else
          match recv c with
          | none => .block
          | some (v, _, rest) => .emit v ⟨rest, true, t + 1⟩) := by
  refine ⟨fun s cl => ?_, fun s m => ?_, fun done c t => ?_⟩
  · have := SkipWhile_run_consume fn s cl 0 0
    simpa [SkipWhile, run] using this
  · have := SkipWhile_run_consume fn s false 0 (m + 1)
    rw [SkipWhile_run_drained_open] at this
    simpa [SkipWhile] using this
  · simp [SkipWhile_step]

theorem SkipWhile_run_drained_closed {α : Type} (fn : Data α → Bool) (m : Nat) :
    ∀ (take : Bool) (t : Nat),
      run (SkipWhile_step neverDone fn) m ⟨some ⟨([] : List (Data α)), true⟩, take, t⟩ =
        ⟨if take || !fn none then List.replicate m none else [], .running⟩ := by
  induction m with
  | zero => intro take t; simp [run]
  | succ m ih =>
    intro take t
    cases take with
    | true =>
      simp [run, SkipWhile_step, recv, neverDone, ih, List.replicate_succ]
    | false =>
      by_cases hnil : fn none = true
      · simp [run, SkipWhile_step, recv, neverDone, hnil, ih]
      · simp [run, SkipWhile_step, recv, neverDone, hnil, ih, List.replicate_succ]

theorem SkipWhile_run_closed {α : Type} (fn : Data α → Bool) (s : List (Data α)) (m : Nat) :
    SkipWhile neverDone (some ⟨s, true⟩) fn (s.length + m) =
      ⟨s.dropWhile fn ++
        (if s.any (fun v => !fn v) || !fn none then List.replicate m none else []),
       .running⟩ := by
  unfold SkipWhile
  rw [SkipWhile_run_consume fn s true 0 m, SkipWhile_run_drained_closed fn m]

/-- C7: on a source that delivers `s` and is then closed, with a cancellation
signal that never fires, `SkipWhile` forwards `s` without its longest leading
run of elements accepted by `fn`, but it does not stop there: every receive on
the closed source yields nil, and as soon as the latch is set (by an element
of `s` that `fn` rejects, or by nil itself when `fn` rejects nil) nil is
forwarded at every iteration; the output is never closed.  For the source
`[2, 4]` and the evenness test, where every element is accepted and nothing
is to be forwarded, it has sent `m` nils after `2 + m` iterations. -/
theorem C7_SkipWhile_forwards_nil_past_source :
    (∀ (α : Type) (fn : Data α → Bool) (s : List (Data α)) (m : Nat),
      SkipWhile neverDone (some ⟨s, true⟩) fn (s.length + m) =
        ⟨s.dropWhile fn ++
          (if s.any (fun v => !fn v) || !fn none then List.replicate m none else []),
         .running⟩) ∧
    (∀ m : Nat, SkipWhile neverDone (some ⟨[some 2, some 4], true⟩) isEven (2 + m) =
      ⟨List.replicate m none, .running⟩) ∧
    [(some 2 : Data Nat), some 4].dropWhile isEven = [] ∧
    SkipWhile neverDone (some ⟨[some 2, some 4], true⟩) isEven 5 =
      (⟨[none, none, none], .running⟩ : Trace (Data Nat)) := by
  refine ⟨fun α fn s m => SkipWhile_run_closed fn s m, fun m => ?_, by decide, by decide⟩
  have := SkipWhile_run_closed isEven [some 2, some 4] m
  simpa [isEven] using this

/-! ### TakeFn and SkipFn -/

theorem TakeFn_run_consume {α : Type} (fn : Data α → Bool) (s : List (Data α)) :
    ∀ (cl : Bool) (t n : Nat),
      run (TakeFn_step neverDone fn) (s.length + n) ⟨some ⟨s, cl⟩, t⟩ =
        ⟨s.filter fn ++ (run (TakeFn_step neverDone fn) n ⟨some ⟨[], cl⟩, t + s.length⟩).events,
         (run (TakeFn_step neverDone fn) n ⟨some ⟨[], cl⟩, t + s.length⟩).status⟩ := by
  induction s with
  | nil => intro cl t n; simp
  | cons v vs ih =>
    intro cl t n
    rw [show (v :: vs).length + n = (vs.length + n) + 1 by simp; omega]
    have := ih cl (t + 1) n
    rw [show t + 1 + vs.length = t + (v :: vs).length by simp; omega] at this
    by_cases hv : fn v = true
    · simp [run, TakeFn_step, recv, neverDone, hv, this]
    · simp [run, TakeFn_step, recv, neverDone, hv, this]

theorem TakeFn_run_drained_closed {α : Type} (fn : Data α → Bool) (m : Nat) :
    ∀ t : Nat, run (TakeFn_step neverDone fn) m ⟨some ⟨([] : List (Data α)), true⟩, t⟩ =
      ⟨if fn none then List.replicate m none else [], .running⟩ := by
  induction m with
  | zero => intro t; simp [run]
  | succ m ih =>
    intro t
    by_cases hv : fn none = true
    · simp [run, TakeFn_step, recv, neverDone, hv, ih, List.replicate_succ]
    · simp [run, TakeFn_step, recv, neverDone, hv, ih]

theorem TakeFn_run_drained_open {α : Type} (fn : Data α → Bool) (m t : Nat) :
    run (TakeFn_step neverDone fn) (m + 1) ⟨some ⟨([] : List (Data α)), false⟩, t⟩ =
      ⟨[], .blocked⟩ := by
  simp [run, TakeFn_step, recv, neverDone]

theorem TakeFn_run_closed {α : Type} (fn : Data α → Bool) (s : List (Data α)) (m : Nat) :
    TakeFn neverDone (some ⟨s, true⟩) fn (s.length + m) =
      ⟨s.filter fn ++ (if fn none then List.replicate m none else []), .running⟩ := by
  unfold TakeFn
  rw [TakeFn_run_consume fn s, TakeFn_run_drained_closed fn]

theorem SkipFn_step_eq_TakeFn_step {α : Type} (done : Done) (fn : Data α → Bool) :
    SkipFn_step done fn = TakeFn_step done (fun v => !fn v) := rfl

/-- C8: on a source that delivers `s` and is then closed, with a cancellation
signal that never fires, `TakeFn` forwards the elements of `s` on which `fn`
holds, in order, but its output is never closed: the goroutine keeps receiving
nil from the closed source, forwarding it when `fn` accepts nil and spinning
otherwise.  For the source `[1, 2, 3, 4]` and the evenness test it has sent
`[2, 4]` and is still running after any number of iterations beyond four. -/
theorem C8_TakeFn_never_closes :
    (∀ (α : Type) (fn : Data α → Bool) (s : List (Data α)) (m : Nat),
      TakeFn neverDone (some ⟨s, true⟩) fn (s.length + m) =
        ⟨s.filter fn ++ (if fn none then List.replicate m none else []), .running⟩) ∧
    (∀ m : Nat, TakeFn neverDone (some ⟨[some 1, some 2, some 3, some 4], true⟩) isEven (4 + m) =
      ⟨[some 2, some 4], .running⟩) := by
  refine ⟨fun α fn s m => TakeFn_run_closed fn s m, fun m => ?_⟩
  have := TakeFn_run_closed isEven [some 1, some 2, some 3, some 4] m
  simpa [isEven] using this

/-- C9: `SkipFn` with `fn` and `TakeFn` with the negated predicate have the same
trace on every source, for every cancellation signal and after any number of
iterations.  With a signal that never fires, once the `len(s)` elements of a
source sequence `s` have been received, `SkipFn` has forwarded exactly the
elements of `s` on which `fn` is false, in source order; and when nothing
follows `s` on the source, that is all it ever forwards. -/
theorem C9_SkipFn_drops_matching {α : Type} (fn : Data α → Bool) :
    (∀ (done : Done) (valueStream : Option (Chan α)) (fuel : Nat),
      SkipFn done valueStream fn fuel = TakeFn done valueStream (fun v => !fn v) fuel) ∧
    (∀ (s : List (Data α)) (cl : Bool),
      SkipFn neverDone (some ⟨s, cl⟩) fn s.length =
        ⟨s.filter (fun v => !fn v), .running⟩) ∧
    (∀ (s : List (Data α)) (m : Nat),
      SkipFn neverDone (some ⟨s, false⟩) fn (s.length + (m + 1)) =
        ⟨s.filter (fun v => !fn v), .blocked⟩) := by
  refine ⟨fun done vs fuel => rfl, fun s cl => ?_, fun s m => ?_⟩
  · have := TakeFn_run_consume (fun v => !fn v) s cl 0 0
    simpa [SkipFn, SkipFn_step_eq_TakeFn_step, run] using this
  · have := TakeFn_run_consume (fun v => !fn v) s false 0 (m + 1)
    rw [TakeFn_run_drained_open] at this
    simpa [SkipFn, SkipFn_step_eq_TakeFn_step] using this

/-! ### FanOut -/

theorem FanOut_run_closed {α : Type} (out : List Nat) (hN : 0 < out.length)
    (s : List (Data α)) :
    ∀ (k m : Nat),
      run (FanOut_step out) (s.length + 1 + m) ⟨some ⟨s, true⟩, k % out.length⟩ =
        ⟨(s.enumFrom k).map (fun p => Event.send ((out[p.1 % out.length]?).getD 0) p.2),
         .returned⟩ := by
  induction s with
  | nil =>
    intro k m
    rw [show ([] : List (Data α)).length + 1 + m = m + 1 by simp; omega]
    simp [run, FanOut_step, recv]
  | cons v vs ih =>
    intro k m
    rw [show (v :: vs).length + 1 + m = (vs.length + 1 + m) + 1 by simp; omega]
    have hlt : k % out.length < out.length := Nat.mod_lt _ hN
    have hne : out.length ≠ 0 := by omega
    have hget : out[k % out.length]? = some (out[k % out.length]) :=
      List.getElem?_eq_getElem hlt
    have hnext : (k % out.length + 1) % out.length = (k + 1) % out.length :=
      Nat.mod_add_mod k out.length 1
    have := ih (k + 1) m
    simp only [run, FanOut_step, recv, hget, hne, if_false, hnext, this]
    simp [hget]

theorem closeAll_nodup {α : Type} (out : List Nat) :
    ∀ acc : List Nat, out.Nodup → (∀ c ∈ out, c ∉ acc) →
      (closeAll acc out : Trace (Event α)) = ⟨out.map Event.close, .returned⟩ := by
  induction out with
  | nil => intro acc _ _; simp [closeAll]
  | cons c cs ih =>
    intro acc hnd hacc
    have hc : c ∉ acc := hacc c (by simp)
    have hcs : cs.Nodup := (List.nodup_cons.mp hnd).2
    have hc2 : c ∉ cs := (List.nodup_cons.mp hnd).1
    have := ih (c :: acc) hcs (fun d hd => by
      intro hmem
      rcases List.mem_cons.mp hmem with rfl | h
      · exact hc2 hd
      · exact hacc d (by simp [hd]) h)
    simp [closeAll, hc, this]

theorem sendsOf_append {α : Type} (a b : List (Event α)) :
    sendsOf (a ++ b) = sendsOf a ++ sendsOf b := by
  induction a with
  | nil => simp [sendsOf]
  | cons e es ih => cases e <;> simp [sendsOf, ih]

theorem sendsOf_map_close {α : Type} (out : List Nat) :
    sendsOf (out.map (Event.close : Nat → Event α)) = [] := by
  induction out with
  | nil => simp [sendsOf]
  | cons c cs ih => simp [sendsOf, ih]

theorem sendsOf_map_send {α : Type} {ι : Type} (f : ι → Nat) (g : ι → Data α) (l : List ι) :
    sendsOf (l.map (fun p => Event.send (f p) (g p))) = l.map (fun p => (f p, g p)) := by
  induction l with
  | nil => simp [sendsOf]
  | cons p ps ih => simp [sendsOf, ih]

theorem FanOut_closed_trace {α : Type} (s : List (Data α)) (out : List Nat)
    (hne : out ≠ []) (hnd : out.Nodup) (m : Nat) :
    FanOut (some ⟨s, true⟩) out (s.length + 1 + m) =
      ⟨s.enum.map (fun p => Event.send ((out[p.1 % out.length]?).getD 0) p.2) ++
        out.map Event.close, .returned⟩ := by
  have hN : 0 < out.length := List.length_pos.mpr hne
  have h := FanOut_run_closed out hN s 0 m
  rw [Nat.zero_mod] at h
  simp only [FanOut, h, closeAll_nodup out [] hnd (fun _ _ => by simp), List.enum]

theorem FanOut_sends {α : Type} (s : List (Data α)) (out : List Nat)
    (hne : out ≠ []) (hnd : out.Nodup) (m : Nat) :
    sendsOf (FanOut (some ⟨s, true⟩) out (s.length + 1 + m)).events =
      s.enum.map (fun p => ((out[p.1 % out.length]?).getD 0, p.2)) := by
  rw [FanOut_closed_trace s out hne hnd m]
  simp only [sendsOf_append, sendsOf_map_close, List.append_nil]
  exact sendsOf_map_send _ _ _

theorem nodup_index_unique (out : List Nat) (hnd : out.Nodup) (a b c : Nat)
    (ha : out[a]? = some c) (hb : out[b]? = some c) : a = b := by
  obtain ⟨hla, hac⟩ := List.getElem?_eq_some_iff.mp ha
  obtain ⟨hlb, hbc⟩ := List.getElem?_eq_some_iff.mp hb
  exact hnd.getElem_inj_iff.mp (hac.trans hbc.symm)

theorem index_in_range (out : List Nat) (hN : 0 < out.length) (j : Nat) :
    ∃ c, out[j % out.length]? = some c :=
  ⟨out.get ⟨j % out.length, Nat.mod_lt _ hN⟩, List.getElem?_eq_getElem (Nat.mod_lt _ hN)⟩

/-- C10: for every finite input sequence `s` (delivered, then closed) and every
non-empty list `out` of pairwise distinct output channels, `FanOut` runs to
completion; its `j`-th send carries the `j`-th input element and goes to
`out[j mod N]`, with `N = len(out)`; so the channel `out[i]` receives exactly the
elements of `s` whose index is congruent to `i` modulo `N`, in source order. -/
theorem C10_FanOut_round_robin {α : Type} (s : List (Data α)) (out : List Nat)
    (hne : out ≠ []) (hnd : out.Nodup) (m : Nat) :
    (FanOut (some ⟨s, true⟩) out (s.length + 1 + m)).status = .returned ∧
    (sendsOf (FanOut (some ⟨s, true⟩) out (s.length + 1 + m)).events).map
        (fun e => (some e.1, e.2)) =
      s.enum.map (fun p => (out[p.1 % out.length]?, p.2)) ∧
    (∀ (i ch : Nat), out[i]? = some ch →
      received ch (FanOut (some ⟨s, true⟩) out (s.length + 1 + m)).events =
        (s.enum.filter (fun p => p.1 % out.length == i)).map Prod.snd) := by
  have hN : 0 < out.length := List.length_pos.mpr hne
  refine ⟨by rw [FanOut_closed_trace s out hne hnd m], ?_, ?_⟩
  · rw [FanOut_sends s out hne hnd m, List.map_map]
    apply List.map_congr_left
    intro p _
    obtain ⟨c, hc⟩ := index_in_range out hN p.1
    simp [hc]
  · intro i ch hi
    unfold received
    rw [FanOut_sends s out hne hnd m, List.filter_map, List.map_map]
    have hfilter : ((fun e : Nat × Data α => e.1 == ch) ∘
        fun p : Nat × Data α => ((out[p.1 % out.length]?).getD 0, p.2)) =
        fun p => p.1 % out.length == i := by
      funext p
      obtain ⟨c, hc⟩ := index_in_range out hN p.1
      simp only [Function.comp, hc, Option.getD_some]
      by_cases hp : p.1 % out.length = i
      · have hcc : c = ch := by
          rw [hp, hi] at hc
          exact (Option.some.inj hc).symm
        simp [hp, hcc]
      · have hneq : c ≠ ch := fun h =>
          hp (nodup_index_unique out hnd _ _ ch (h ▸ hc) hi)
        simp [hp, hneq]
    rw [hfilter]
    congr 1

/-- C10 at the source `[1, 2, 3, 4]` with the two outputs `o0 = 10` and `o1 = 11`:
`o0` receives `[1, 3]` and `o1` receives `[2, 4]`. -/
theorem C10_FanOut_round_robin_witness :
    ([10, 11] : List Nat) ≠ [] ∧ ([10, 11] : List Nat).Nodup ∧
    received 10 (FanOut (some ⟨[some 1, some 2, some 3, some 4], true⟩ : Option (Chan Nat))
      [10, 11] 5).events = [some 1, some 3] ∧
    received 11 (FanOut (some ⟨[some 1, some 2, some 3, some 4], true⟩ : Option (Chan Nat))
      [10, 11] 5).events = [some 2, some 4] := by
  have h := C10_FanOut_round_robin [(some 1 : Data Nat), some 2, some 3, some 4] [10, 11]
    (by decide) (by decide) 0
  refine ⟨by decide, by decide, ?_, ?_⟩
  · have := h.2.2 0 10 (by decide)
    simpa [List.enum, List.enumFrom] using this
  · have := h.2.2 1 11 (by decide)
    simpa [List.enum, List.enumFrom] using this



/-! ### Tee -/

theorem Tee_run_closed {α : Type} (out : List Nat) (s : List (Data α)) (m : Nat) :
    run (Tee_step out) (s.length + 1 + m) (some ⟨s, true⟩) =
      ⟨s.map (fun v => out.map (fun ch => Event.send ch v)), .returned⟩ := by
  induction s with
  | nil =>
    rw [show ([] : List (Data α)).length + 1 + m = m + 1 by simp; omega]
    simp [run, Tee_step, recv]
  | cons v vs ih =>
    rw [show (v :: vs).length + 1 + m = (vs.length + 1 + m) + 1 by simp; omega]
    simp [run, Tee_step, recv, ih]

theorem Tee_closed_trace {α : Type} (s : List (Data α)) (out : List Nat)
    (hnd : out.Nodup) (m : Nat) :
    Tee (some ⟨s, true⟩) out (s.length + 1 + m) =
      ⟨s.flatMap (fun v => out.map (fun ch => Event.send ch v)) ++ out.map Event.close,
       .returned⟩ := by
  simp only [Tee, Tee_run_closed, closeAll_nodup out [] hnd (fun _ _ => by simp),
    List.flatMap]

theorem sendsOf_flatMap_send {α : Type} (out : List Nat) (s : List (Data α)) :
    sendsOf (s.flatMap (fun v => out.map (fun ch => Event.send ch v))) =
      s.flatMap (fun v => out.map (fun ch => (ch, v))) := by
  induction s with
  | nil => simp [sendsOf]
  | cons v vs ih =>
    simp only [List.flatMap_cons, sendsOf_append, ih]
    congr 1
    exact sendsOf_map_send (fun ch => ch) (fun _ => v) out

theorem Tee_sends {α : Type} (s : List (Data α)) (out : List Nat)
    (hnd : out.Nodup) (m : Nat) :
    sendsOf (Tee (some ⟨s, true⟩) out (s.length + 1 + m)).events =
      s.flatMap (fun v => out.map (fun ch => (ch, v))) := by
  rw [Tee_closed_trace s out hnd m]
  simp only [sendsOf_append, sendsOf_map_close, List.append_nil]
  exact sendsOf_flatMap_send out s

theorem Tee_row_received {α : Type} (out : List Nat) (hnd : out.Nodup) (ch : Nat)
    (hch : ch ∈ out) (v : Data α) :
    ((out.map (fun c => (c, v))).filter (fun e => e.1 == ch)).map Prod.snd = [v] := by
  rw [List.filter_map, List.map_map]
  have h1 : ((fun e : Nat × Data α => e.1 == ch) ∘ fun c => (c, v)) = fun c => c == ch := rfl
  rw [h1, List.filter_beq, List.count_eq_one_of_mem hnd hch]
  rfl

/-- C11: for every finite input sequence `s` (delivered, then closed) and every
list `out` of pairwise distinct output channels, `Tee` runs to completion; its
trace of sends is, element after element of `s`, the sends of that element to
`out[0]`, ..., `out[N-1]` in this order, so that all sends of one element come
before the first send of the next; and every output receives exactly `s`. -/
theorem C11_Tee_broadcasts_in_order {α : Type} (s : List (Data α)) (out : List Nat)
    (hnd : out.Nodup) (m : Nat) :
    (Tee (some ⟨s, true⟩) out (s.length + 1 + m)).status = .returned ∧
    sendsOf (Tee (some ⟨s, true⟩) out (s.length + 1 + m)).events =
      s.flatMap (fun v => out.map (fun ch => (ch, v))) ∧
    (∀ ch ∈ out, received ch (Tee (some ⟨s, true⟩) out (s.length + 1 + m)).events = s) := by
  refine ⟨by rw [Tee_closed_trace s out hnd m], Tee_sends s out hnd m, ?_⟩
  intro ch hch
  unfold received
  rw [Tee_sends s out hnd m]
  induction s with
  | nil => simp
  | cons v vs ih =>
    rw [List.flatMap_cons, List.filter_append, List.map_append,
      Tee_row_received out hnd ch hch v, ih]
    rfl

/-- C11 at the source `[1, 2]` with the two outputs `10` and `11`: the sends are
`1` to `10`, `1` to `11`, `2` to `10`, `2` to `11`, and both outputs receive
`[1, 2]`. -/
theorem C11_Tee_broadcasts_in_order_witness :
    ([10, 11] : List Nat).Nodup ∧
    sendsOf (Tee (some ⟨[some 1, some 2], true⟩ : Option (Chan Nat)) [10, 11] 3).events =
      [(10, some 1), (11, some 1), (10, some 2), (11, some 2)] ∧
    received 10 (Tee (some ⟨[some 1, some 2], true⟩ : Option (Chan Nat)) [10, 11] 3).events =
      [some 1, some 2] ∧
    received 11 (Tee (some ⟨[some 1, some 2], true⟩ : Option (Chan Nat)) [10, 11] 3).events =
      [some 1, some 2] := by
  have h := C11_Tee_broadcasts_in_order [(some 1 : Data Nat), some 2] [10, 11] (by decide) 0
  exact ⟨by decide, h.2.1, h.2.2 10 (by decide), h.2.2 11 (by decide)⟩



/-! ### OrDone -/

theorem OrDone_run_never_closed {α : Type} (s : List (Data α)) :
    ∀ (t m : Nat), run (OrDone_step neverDone) (s.length + 1 + m) ⟨some ⟨s, true⟩, t⟩ =
      ⟨s, .returned⟩ := by
  induction s with
  | nil =>
    intro t m
    rw [show ([] : List (Data α)).length + 1 + m = m + 1 by simp; omega]
    simp [run, OrDone_step, recv, neverDone]
  | cons v vs ih =>
    intro t m
    rw [show (v :: vs).length + 1 + m = (vs.length + 1 + m) + 1 by simp; omega]
    simp [run, OrDone_step, recv, neverDone, ih]

theorem OrDone_never_closed {α : Type} (s : List (Data α)) (m : Nat) :
    OrDone neverDone (some ⟨s, true⟩) (s.length + 1 + m) = ⟨s, .returned⟩ :=
  OrDone_run_never_closed s 0 m

theorem OrDone_run_sublist {α : Type} (done : Done) (fuel : Nat) :
    ∀ (l : List (Data α)) (cl : Bool) (t : Nat),
      (run (OrDone_step done) fuel ⟨some ⟨l, cl⟩, t⟩).events.Sublist l := by
  induction fuel with
  | zero => intro l cl t; simp [run]
  | succ n ih =>
    intro l cl t
    by_cases h0 : done t = true
    · simp [run, OrDone_step, h0]
    · cases l with
      | nil => cases cl <;> simp [run, OrDone_step, h0, recv]
      | cons v vs =>
        by_cases h1 : done (t + 1) = true
        · simp only [run, OrDone_step, h0, recv, h1, if_true, Bool.false_eq_true, if_false]
          exact List.Sublist.cons v (ih vs cl (t + 2))
        · simp only [run, OrDone_step, h0, recv, h1, Bool.false_eq_true, if_false]
          exact List.Sublist.cons₂ v (ih vs cl (t + 2))

theorem OrDone_run_doneFrom {α : Type} (k : Nat) (fuel : Nat) :
    ∀ (l : List (Data α)) (cl : Bool) (t : Nat),
      (run (OrDone_step (doneFrom k)) fuel ⟨some ⟨l, cl⟩, t⟩).events <+: l := by
  induction fuel with
  | zero => intro l cl t; simp [run]
  | succ n ih =>
    intro l cl t
    by_cases h0 : k ≤ t
    · simp [run, OrDone_step, doneFrom, h0]
    · cases l with
      | nil => cases cl <;> simp [run, OrDone_step, doneFrom, h0, recv]
      | cons v vs =>
        by_cases h1 : k ≤ t + 1
        · have h2 : k ≤ t + 2 := by omega
          cases n with
          | zero => simp [run, OrDone_step, doneFrom, h0, recv, h1]
          | succ n => simp [run, OrDone_step, doneFrom, h0, recv, h1, h2]
        · have := ih vs cl (t + 2)
          simp only [run, OrDone_step, doneFrom, h0, recv, h1, decide_False,
            Bool.false_eq_true, if_false]
          exact (List.prefix_cons_inj v).mpr this

/-- C12: `OrDone` forwards a value after it has observed the cancellation signal,
and what it emits need not be a leading part of the source.  On the source
`[1, 2]` (then closed), when the select that would deliver `1` takes `<-done`
and the two selects after it take the receive of `2` and the send, the relay
drops `1`, emits `[2]` and closes.  When the signal never fires and the source
delivers `s` and is closed, the output is exactly `s`, then closed. -/
theorem C12_OrDone_forwards_after_done :
    OrDone (doneOnlyAt 1) (some ⟨[some 1, some 2], true⟩) 3 =
      (⟨[some 2], .returned⟩ : Trace (Data Nat)) ∧
    ¬ ([(some 2 : Data Nat)] <+: [some 1, some 2]) ∧
    (∀ (α : Type) (s : List (Data α)) (m : Nat),
      OrDone neverDone (some ⟨s, true⟩) (s.length + 1 + m) = ⟨s, .returned⟩) := by
  refine ⟨by decide, by decide, fun α s m => OrDone_never_closed s m⟩



/-! ### Flat -/

theorem Flat_run_relay {α : Type} (l : List (Data α)) :
    ∀ (cs : Option (Chan (Chan α))) (t r n : Nat),
      run (Flat_step neverDone (fun _ => neverDone)) (l.length + 1 + n)
          ⟨cs, some ⟨l, .returned⟩, t, r⟩ =
        ⟨l ++ (run (Flat_step neverDone (fun _ => neverDone)) n
                ⟨cs, none, t + l.length, r⟩).events,
         (run (Flat_step neverDone (fun _ => neverDone)) n
                ⟨cs, none, t + l.length, r⟩).status⟩ := by
  induction l with
  | nil =>
    intro cs t r n
    rw [show ([] : List (Data α)).length + 1 + n = n + 1 by simp; omega]
    simp [run, Flat_step]
  | cons v vs ih =>
    intro cs t r n
    rw [show (v :: vs).length + 1 + n = (vs.length + 1 + n) + 1 by simp; omega]
    have := ih cs (t + 1) r n
    rw [show t + 1 + vs.length = t + (v :: vs).length by simp; omega] at this
    simp [run, Flat_step, neverDone, this]

/-- The iterations `Flat` spends on the inner sequences `ss`: for each of them one
to receive it, one per element, and one to see its relay closed. -/
theorem Flat_run_closed {α : Type} (ss : List (List (Data α))) :
    ∀ (t r m : Nat),
      run (Flat_step neverDone (fun _ => neverDone))
          ((ss.map (fun s => s.length + 2)).sum + 1 + m)
          ⟨some ⟨ss.map (fun s => some ⟨s, true⟩), true⟩, none, t, r⟩ =
        ⟨ss.flatten, .returned⟩ := by
  induction ss with
  | nil =>
    intro t r m
    rw [show (List.map (fun s : List (Data α) => s.length + 2) []).sum + 1 + m = m + 1 by
      simp; omega]
    simp [run, Flat_step, neverDone, recv]
  | cons s ss ih =>
    intro t r m
    rw [show (List.map (fun s : List (Data α) => s.length + 2) (s :: ss)).sum + 1 + m =
        (s.length + 1 + ((ss.map (fun s => s.length + 2)).sum + 1 + m)) + 1 by
      simp; omega]
    have hrelay : OrDone neverDone (some ⟨s, true⟩) (relayFuel (some ⟨s, true⟩)) =
        ⟨s, .returned⟩ := OrDone_never_closed s 0
    have h1 := Flat_run_relay s (some ⟨ss.map (fun s => some ⟨s, true⟩), true⟩) (t + 1) (r + 1)
      ((ss.map (fun s => s.length + 2)).sum + 1 + m)
    rw [ih] at h1
    simp only [run, Flat_step, neverDone, recv, List.map_cons, Bool.false_eq_true, if_false,
      hrelay, h1, List.flatten_cons]

/-- C13: for every finite outer sequence of finite inner sequences `s1, ..., sm`
(each delivered and then closed, the outer one as well) and a cancellation
signal that never fires, the consumer of `Flat` reads the concatenation
`s1 ++ ... ++ sm` in order of arrival and then sees the output closed.  While a
value of the current inner sequence is still to be forwarded, an iteration
forwards (or, on `done`, drops) that value and leaves the outer source as it
is: the next inner sequence is received only when the current one is through. -/
theorem C13_Flat_concatenates {α : Type} (ss : List (List (Data α))) :
    (∀ m : Nat,
      Flat neverDone (fun _ => neverDone) (some ⟨ss.map (fun s => some ⟨s, true⟩), true⟩)
          ((ss.map (fun s => s.length + 2)).sum + 1 + m) =
        ⟨ss.flatten, .returned⟩) ∧
    (∀ (done : Done) (relayDone : Nat → Done) (cs : Option (Chan (Chan α)))
        (v : Data α) (vs : List (Data α)) (how : Status) (t r : Nat),
      Flat_step done relayDone ⟨cs, some ⟨v :: vs, how⟩, t, r⟩ =
        if done t then .tau ⟨cs, some ⟨vs, how⟩, t + 1, r⟩
        else .emit v ⟨cs, some ⟨vs, how⟩, t + 1, r⟩) := by
  refine ⟨fun m => Flat_run_closed ss 0 0 m, ?_⟩
  intro done relayDone cs v vs how t r
  simp [Flat_step]



/-! ### Merge -/

theorem Merge_run_nil {α : Type} (st : MergeState α) : Merge_run st [] = (st, []) := rfl

theorem Merge_run_cons {α : Type} (st : MergeState α) (j : Nat) (js : List Nat) :
    Merge_run st (j :: js) =
      ((Merge_run (Merge_step st j).1 js).1,
       (Merge_step st j).2 ++ (Merge_run (Merge_step st j).1 js).2) := rfl

theorem fromInput_append {α : Type} (j : Nat) (a b : List (MergeEvent α)) :
    fromInput j (a ++ b) = fromInput j a ++ fromInput j b := by
  induction a with
  | nil => simp [fromInput]
  | cons e es ih =>
    cases e with
    | send i v => by_cases h : i = j <;> simp [fromInput, h, ih]
    | close => simp [fromInput, ih]

theorem valuesOf_append {α : Type} (a b : List (MergeEvent α)) :
    valuesOf (a ++ b) = valuesOf a ++ valuesOf b := by
  induction a with
  | nil => simp [valuesOf]
  | cons e es ih => cases e <;> simp [valuesOf, ih]

theorem closeCount_append {α : Type} (a b : List (MergeEvent α)) :
    closeCount (a ++ b) = closeCount a + closeCount b := by
  induction a with
  | nil => simp [closeCount]
  | cons e es ih =>
    cases e with
    | send i v => simp [closeCount, ih]
    | close => simp [closeCount, ih]; omega

/-- The moves of `Merge`, case by case: no move (which a relay on a closed input
makes only when it has finished), a relay sends its next value, a relay meets
the end of its input and calls `wg.Done()`, the closer closes `out`. -/
theorem Merge_step_cases {α : Type} (st : MergeState α) (j : Nat) :
    (Merge_step st j = (st, []) ∧
      ∀ r, st.relays[j]? = some r → r.onClosedInput = true → r.work = 0) ∨
    (∃ v vs cl, j < st.relays.length ∧ st.relays[j]? = some (.ranging (some ⟨v :: vs, cl⟩)) ∧
      Merge_step st j =
        (⟨st.relays.set j (.ranging (some ⟨vs, cl⟩)), st.wg, st.closed⟩, [.send j v])) ∨
    (j < st.relays.length ∧ st.relays[j]? = some (.ranging (some ⟨[], true⟩)) ∧
      Merge_step st j = (⟨st.relays.set j .finished, st.wg - 1, st.closed⟩, [])) ∨
    (st.relays.length ≤ j ∧ st.wg = 0 ∧ st.closed = false ∧
      Merge_step st j = (⟨st.relays, st.wg, true⟩, [.close])) := by
  by_cases hj : j < st.relays.length
  · have hstep : Merge_step st j = Merge_output st j := by simp [Merge_step, hj]
    rw [hstep]
    unfold Merge_output
    cases hr : st.relays[j]? with
    | none => simp
    | some r =>
      cases r with
      | finished => simp [Relay.work]
      | ranging c =>
        cases c with
        | none => simp [recv, Relay.onClosedInput]
        | some ch =>
          obtain ⟨l, cl⟩ := ch
          cases l with
          | nil =>
            cases cl with
            | false => simp [recv, Relay.onClosedInput]
            | true =>
              refine Or.inr (Or.inr (Or.inl ⟨hj, rfl, ?_⟩))
              simp [recv]
          | cons v vs =>
            refine Or.inr (Or.inl ⟨v, vs, cl, hj, rfl, ?_⟩)
            simp [recv]
  · have hstep : Merge_step st j = Merge_closer st := by simp [Merge_step, hj]
    have hnone : st.relays[j]? = none := List.getElem?_eq_none (by omega)
    rw [hstep]
    unfold Merge_closer
    by_cases hc : st.wg = 0 ∧ st.closed = false
    · refine Or.inr (Or.inr (Or.inr ⟨by omega, hc.1, hc.2, ?_⟩))
      simp [hc]
    · simp [hc, hnone]

theorem Merge_step_length {α : Type} (st : MergeState α) (j : Nat) :
    (Merge_step st j).1.relays.length = st.relays.length := by
  rcases Merge_step_cases st j with ⟨h, _⟩ | ⟨v, vs, cl, _, _, h⟩ | ⟨_, _, h⟩ | ⟨_, _, _, h⟩ <;>
    simp [h]

theorem Merge_step_rest {α : Type} (st : MergeState α) (j i : Nat) :
    fromInput i (Merge_step st j).2 ++ restAt (Merge_step st j).1 i = restAt st i := by
  rcases Merge_step_cases st j with ⟨h, _⟩ | ⟨v, vs, cl, hj, hr, h⟩ | ⟨hj, hr, h⟩ | ⟨_, _, _, h⟩
  · simp [h, fromInput]
  · rw [h]
    by_cases hji : j = i
    · subst hji
      simp [fromInput, restAt, List.getElem?_set, hj, hr, Relay.rest]
    · simp [fromInput, restAt, List.getElem?_set, hji, Relay.rest]
  · rw [h]
    by_cases hji : j = i
    · subst hji
      simp [fromInput, restAt, List.getElem?_set, hj, hr, Relay.rest]
    · simp [fromInput, restAt, List.getElem?_set, hji, Relay.rest]
  · simp [h, fromInput, restAt]

theorem Merge_step_close {α : Type} (st : MergeState α) (j : Nat) :
    closeCount (Merge_step st j).2 + (if st.closed then 1 else 0) =
      (if (Merge_step st j).1.closed then 1 else 0) := by
  rcases Merge_step_cases st j with ⟨h, _⟩ | ⟨v, vs, cl, _, _, h⟩ | ⟨_, _, h⟩ | ⟨_, _, hc, h⟩
  · simp [h, closeCount]
  · simp [h, closeCount]
  · simp [h, closeCount]
  · simp [h, closeCount, hc]

theorem Merge_step_perm {α : Type} (st : MergeState α) (j : Nat) :
    (valuesOf (Merge_step st j).2 ++
        ((Merge_step st j).1.relays.map Relay.rest).flatten).Perm
      (st.relays.map Relay.rest).flatten := by
  rcases Merge_step_cases st j with ⟨h, _⟩ | ⟨v, vs, cl, hj, hr, h⟩ | ⟨hj, hr, h⟩ | ⟨_, _, _, h⟩
  · simp [h, valuesOf]
  · rw [h]
    obtain ⟨_, hget⟩ := List.getElem?_eq_some_iff.mp hr
    have hsplit : st.relays = st.relays.take j ++
        Relay.ranging (some ⟨v :: vs, cl⟩) :: st.relays.drop (j + 1) := by
      rw [← hget, ← List.drop_eq_getElem_cons hj, List.take_append_drop]
    have hset : st.relays.set j (Relay.ranging (some ⟨vs, cl⟩)) = st.relays.take j ++
        Relay.ranging (some ⟨vs, cl⟩) :: st.relays.drop (j + 1) := by
      rw [List.set_eq_take_append_cons_drop, if_pos hj]
    simp only [hset, valuesOf]
    conv_rhs => rw [hsplit]
    simp only [List.map_append, List.map_cons, List.flatten_append, List.flatten_cons,
      Relay.rest, List.singleton_append, List.cons_append, List.nil_append]
    exact List.perm_middle.symm
  · rw [h]
    obtain ⟨_, hget⟩ := List.getElem?_eq_some_iff.mp hr
    have hsplit : st.relays = st.relays.take j ++
        Relay.ranging (some ⟨[], true⟩) :: st.relays.drop (j + 1) := by
      rw [← hget, ← List.drop_eq_getElem_cons hj, List.take_append_drop]
    have hset : st.relays.set j (Relay.finished : Relay α) = st.relays.take j ++
        Relay.finished :: st.relays.drop (j + 1) := by
      rw [List.set_eq_take_append_cons_drop, if_pos hj]
    simp only [hset, valuesOf]
    conv_rhs => rw [hsplit]
    simp [Relay.rest]
  · simp [h, valuesOf]

theorem countP_pos_of_getElem? {β : Type} (p : β → Bool) (l : List β) (j : Nat) (x : β)
    (hx : l[j]? = some x) (hp : p x = true) : 0 < l.countP p := by
  obtain ⟨hj, hget⟩ := List.getElem?_eq_some_iff.mp hx
  exact List.countP_pos_iff.mpr ⟨x, hget ▸ List.getElem_mem hj, hp⟩

theorem Merge_step_inv {α : Type} (st : MergeState α) (j : Nat) (hinv : Merge_inv st) :
    Merge_inv (Merge_step st j).1 := by
  obtain ⟨hwg, hcl, hclosed⟩ := hinv
  rcases Merge_step_cases st j with ⟨h, _⟩ | ⟨v, vs, cl, hj, hr, h⟩ | ⟨hj, hr, h⟩ | ⟨_, h0, _, h⟩
  · rw [h]; exact ⟨hwg, hcl, hclosed⟩
  · rw [h]
    obtain ⟨_, hget⟩ := List.getElem?_eq_some_iff.mp hr
    have hpos := countP_pos_of_getElem? Relay.isRanging st.relays j _ hr rfl
    refine ⟨?_, ?_, hclosed⟩
    · simp only [List.countP_set _ _ _ _ hj, hget, Relay.isRanging, if_true]
      omega
    · intro r hr'
      rcases List.mem_or_eq_of_mem_set hr' with hmem | rfl
      · exact hcl r hmem
      · have := hcl _ (hget ▸ List.getElem_mem hj)
        simpa [Relay.onClosedInput] using this
  · rw [h]
    obtain ⟨_, hget⟩ := List.getElem?_eq_some_iff.mp hr
    have hpos := countP_pos_of_getElem? Relay.isRanging st.relays j _ hr rfl
    refine ⟨?_, ?_, ?_⟩
    · simp only [List.countP_set _ _ _ _ hj, hget, Relay.isRanging, if_true]
      simp
      omega
    · intro r hr'
      rcases List.mem_or_eq_of_mem_set hr' with hmem | rfl
      · exact hcl r hmem
      · rfl
    · intro hc
      have := hclosed hc
      simp only
      omega
  · rw [h]
    exact ⟨hwg, hcl, fun _ => h0⟩

theorem Merge_step_closed {α : Type} (st : MergeState α) (j : Nat) (hinv : Merge_inv st)
    (hc : st.closed = true) : Merge_step st j = (st, []) := by
  obtain ⟨hwg, _, hclosed⟩ := hinv
  have hzero : st.relays.countP Relay.isRanging = 0 := by rw [← hwg]; exact hclosed hc
  rcases Merge_step_cases st j with ⟨h, _⟩ | ⟨v, vs, cl, hj, hr, h⟩ | ⟨hj, hr, h⟩ | ⟨_, _, hf, h⟩
  · exact h
  · have := countP_pos_of_getElem? Relay.isRanging st.relays j _ hr rfl
    omega
  · have := countP_pos_of_getElem? Relay.isRanging st.relays j _ hr rfl
    omega
  · rw [hc] at hf; cases hf

theorem Merge_step_work {α : Type} (st : MergeState α) (j i : Nat) (hinv : Merge_inv st) :
    workAt (Merge_step st j).1 i = if i = j then workAt st i - 1 else workAt st i := by
  obtain ⟨_, hcl, _⟩ := hinv
  rcases Merge_step_cases st j with ⟨h, hw⟩ | ⟨v, vs, cl, hj, hr, h⟩ | ⟨hj, hr, h⟩ | ⟨hj, _, _, h⟩
  · rw [h]
    by_cases hij : i = j
    · subst hij
      simp only [if_true, workAt]
      cases hr : st.relays[i]? with
      | none => rfl
      | some r =>
        obtain ⟨hi, hget⟩ := List.getElem?_eq_some_iff.mp hr
        have := hw r hr (hcl r (hget ▸ List.getElem_mem hi))
        simp [this]
    · simp [hij]
  · rw [h]
    by_cases hij : i = j
    · subst hij
      simp [workAt, List.getElem?_set, hj, hr, Relay.work]
    · have hji : ¬ j = i := fun h => hij h.symm
      simp [workAt, List.getElem?_set, hij, hji]
  · rw [h]
    by_cases hij : i = j
    · subst hij
      simp [workAt, List.getElem?_set, hj, hr, Relay.work]
    · have hji : ¬ j = i := fun h => hij h.symm
      simp [workAt, List.getElem?_set, hij, hji]
  · rw [h]
    by_cases hij : i = j
    · subst hij
      have hnone : st.relays[i]? = none := List.getElem?_eq_none hj
      simp [workAt, hnone]
    · simp [workAt, hij]

theorem Merge_run_inv {α : Type} (sched : List Nat) :
    ∀ st : MergeState α, Merge_inv st → Merge_inv (Merge_run st sched).1 := by
  induction sched with
  | nil => intro st h; exact h
  | cons j js ih => intro st h; exact ih _ (Merge_step_inv st j h)

theorem Merge_run_rest {α : Type} (i : Nat) (sched : List Nat) :
    ∀ st : MergeState α,
      fromInput i (Merge_run st sched).2 ++ restAt (Merge_run st sched).1 i = restAt st i := by
  induction sched with
  | nil => intro st; simp [Merge_run, fromInput]
  | cons j js ih =>
    intro st
    rw [Merge_run_cons]
    simp only [fromInput_append, List.append_assoc, ih, Merge_step_rest]

theorem Merge_run_perm {α : Type} (sched : List Nat) :
    ∀ st : MergeState α,
      (valuesOf (Merge_run st sched).2 ++
          ((Merge_run st sched).1.relays.map Relay.rest).flatten).Perm
        (st.relays.map Relay.rest).flatten := by
  induction sched with
  | nil => intro st; simp [Merge_run, valuesOf]
  | cons j js ih =>
    intro st
    rw [Merge_run_cons]
    simp only [valuesOf_append, List.append_assoc]
    exact ((ih (Merge_step st j).1).append_left _).trans (Merge_step_perm st j)

theorem Merge_run_close {α : Type} (sched : List Nat) :
    ∀ st : MergeState α,
      closeCount (Merge_run st sched).2 + (if st.closed then 1 else 0) =
        (if (Merge_run st sched).1.closed then 1 else 0) := by
  induction sched with
  | nil => intro st; simp [Merge_run, closeCount]
  | cons j js ih =>
    intro st
    rw [Merge_run_cons]
    have h1 := Merge_step_close st j
    have h2 := ih (Merge_step st j).1
    simp only [closeCount_append]
    omega

theorem Merge_run_closed {α : Type} (sched : List Nat) :
    ∀ st : MergeState α, Merge_inv st → st.closed = true → Merge_run st sched = (st, []) := by
  induction sched with
  | nil => intro st _ _; rfl
  | cons j js ih =>
    intro st hinv hc
    rw [Merge_run_cons, Merge_step_closed st j hinv hc]
    simp [ih st hinv hc]

theorem Merge_run_work {α : Type} (i : Nat) (sched : List Nat) :
    ∀ st : MergeState α, Merge_inv st →
      workAt (Merge_run st sched).1 i = workAt st i - sched.count i := by
  induction sched with
  | nil => intro st _; simp [Merge_run]
  | cons j js ih =>
    intro st hinv
    rw [Merge_run_cons]
    simp only
    rw [ih _ (Merge_step_inv st j hinv), Merge_step_work st j i hinv, List.count_cons]
    by_cases hij : i = j
    · subst hij; simp; omega
    · have hji : ¬ j = i := fun h => hij h.symm
      simp [hij, hji]

theorem Merge_run_last {α : Type} (sched : List Nat) :
    ∀ st : MergeState α, Merge_inv st → st.closed = false →
      (Merge_run st sched).1.closed = true →
      (Merge_run st sched).2.getLast? = some MergeEvent.close := by
  induction sched with
  | nil => intro st _ hf hc; simp [Merge_run, hf] at hc
  | cons j js ih =>
    intro st hinv hf hc
    rw [Merge_run_cons] at hc ⊢
    simp only at hc ⊢
    have hinv1 := Merge_step_inv st j hinv
    by_cases h1 : (Merge_step st j).1.closed = true
    · rw [Merge_run_closed js _ hinv1 h1]
      rcases Merge_step_cases st j with ⟨h, _⟩ | ⟨v, vs, cl, _, _, h⟩ | ⟨_, _, h⟩ | ⟨_, _, _, h⟩
      · rw [h] at h1; simp [hf] at h1
      · rw [h] at h1; simp [hf] at h1
      · rw [h] at h1; simp [hf] at h1
      · rw [h]; simp
    · have h1f : (Merge_step st j).1.closed = false := by simpa using h1
      have := ih _ hinv1 h1f hc
      rw [List.getLast?_append, this]
      rfl

theorem Merge_run_append {α : Type} (a b : List Nat) :
    ∀ st : MergeState α,
      Merge_run st (a ++ b) =
        ((Merge_run (Merge_run st a).1 b).1,
         (Merge_run st a).2 ++ (Merge_run (Merge_run st a).1 b).2) := by
  induction a with
  | nil => intro st; simp [Merge_run]
  | cons j js ih =>
    intro st
    simp only [List.cons_append, Merge_run_cons, ih, List.append_assoc]

theorem Merge_run_length {α : Type} (sched : List Nat) :
    ∀ st : MergeState α, (Merge_run st sched).1.relays.length = st.relays.length := by
  induction sched with
  | nil => intro st; rfl
  | cons j js ih => intro st; rw [Merge_run_cons]; simp only [ih, Merge_step_length]

theorem Merge_init_inv {α : Type} (ins : List (List (Data α))) :
    Merge_inv (⟨(closedInputs ins).map Relay.ranging, (closedInputs ins).length, false⟩ :
      MergeState α) := by
  refine ⟨?_, ?_, by simp⟩
  · induction ins with
    | nil => simp [closedInputs]
    | cons s ss ih =>
      simp only [closedInputs, List.map_cons, List.length_cons, List.length_map,
        List.countP_cons, Relay.isRanging, if_true] at ih ⊢
      omega
  · intro r hr
    simp only [closedInputs, List.map_map, List.mem_map, Function.comp] at hr
    obtain ⟨s, _, rfl⟩ := hr
    rfl

theorem Merge_init_rest {α : Type} (ins : List (List (Data α))) (j : Nat) :
    restAt (⟨(closedInputs ins).map Relay.ranging, (closedInputs ins).length, false⟩ :
      MergeState α) j = ins.getD j [] := by
  simp only [restAt, closedInputs, List.map_map, List.getElem?_map, List.getD_eq_getElem?_getD]
  cases ins[j]? <;> simp [Relay.rest]

theorem Merge_init_flatten {α : Type} (ins : List (List (Data α))) :
    (((closedInputs ins).map Relay.ranging).map Relay.rest).flatten = ins.flatten := by
  congr 1
  simp only [closedInputs, List.map_map]
  induction ins with
  | nil => rfl
  | cons s ss ih => simp [Relay.rest, ih]

theorem Merge_init_work {α : Type} (ins : List (List (Data α))) (j : Nat) (s : List (Data α))
    (hs : ins[j]? = some s) :
    workAt (⟨(closedInputs ins).map Relay.ranging, (closedInputs ins).length, false⟩ :
      MergeState α) j = s.length + 1 := by
  simp [workAt, closedInputs, List.getElem?_map, hs, Relay.work]

theorem Merge_closed_rest {α : Type} (st : MergeState α) (hinv : Merge_inv st)
    (hc : st.closed = true) : ∀ r ∈ st.relays, r.rest = [] := by
  obtain ⟨hwg, _, hclosed⟩ := hinv
  have hzero : st.relays.countP Relay.isRanging = 0 := by rw [← hwg]; exact hclosed hc
  intro r hr
  have := List.countP_eq_zero.mp hzero r hr
  cases r with
  | finished => rfl
  | ranging c => simp [Relay.isRanging] at this

theorem Merge_closed_restAt {α : Type} (st : MergeState α) (hinv : Merge_inv st)
    (hc : st.closed = true) (i : Nat) : restAt st i = [] := by
  unfold restAt
  cases hr : st.relays[i]? with
  | none => rfl
  | some r =>
    obtain ⟨hi, hget⟩ := List.getElem?_eq_some_iff.mp hr
    exact Merge_closed_rest st hinv hc r (hget ▸ List.getElem_mem hi)

theorem Merge_closed_flatten {α : Type} (st : MergeState α) (hinv : Merge_inv st)
    (hc : st.closed = true) : (st.relays.map Relay.rest).flatten = [] := by
  rw [List.flatten_eq_nil_iff]
  intro l hl
  obtain ⟨r, hr, rfl⟩ := List.mem_map.mp hl
  exact Merge_closed_rest st hinv hc r hr

theorem Merge_closer_fires {α : Type} (st : MergeState α) (hinv : Merge_inv st)
    (hwork : ∀ i, workAt st i = 0) :
    (Merge_run st [st.relays.length]).1.closed = true := by
  obtain ⟨hwg, _, _⟩ := hinv
  have hzero : st.relays.countP Relay.isRanging = 0 := by
    rw [List.countP_eq_zero]
    intro r hr
    obtain ⟨i, hi, hget⟩ := List.getElem_of_mem hr
    have hw := hwork i
    have hsome : st.relays[i]? = some r := by rw [List.getElem?_eq_getElem hi, hget]
    simp only [workAt, hsome] at hw
    cases r with
    | finished => simp [Relay.isRanging]
    | ranging c => cases c <;> simp [Relay.work] at hw
  have hwg0 : st.wg = 0 := by omega
  simp only [Merge_run, Merge_step, Nat.lt_irrefl, if_false, Merge_closer, hwg0, true_and]
  by_cases hc : st.closed = false
  · simp [hc]
  · simp only [hc, if_false]
    simpa using hc

/-- C14: for every list of finite input sequences `ins` (each delivered, then
closed) and every schedule of the relay goroutines and the closer of `Merge`:
what the relay of input `j` has put on the output is, at any time, a leading
part of input `j`, in its order (nothing duplicated or reordered, nothing from
elsewhere); the output is closed at most once; when it has been closed it has
been closed exactly once, the close is the last event, every input has been
relayed in full, and the sequence read is a permutation of the inputs taken
together; and the output does get closed under every schedule that gives the
relay of each input one step per element and one more, and then a step to the
closer. -/
theorem C14_Merge_interleaves {α : Type} (ins : List (List (Data α))) (sched : List Nat) :
    (∀ j, fromInput j (Merge (closedInputs ins) sched).2 <+: ins.getD j []) ∧
    closeCount (Merge (closedInputs ins) sched).2 ≤ 1 ∧
    ((Merge (closedInputs ins) sched).1.closed = true →
      closeCount (Merge (closedInputs ins) sched).2 = 1 ∧
      (Merge (closedInputs ins) sched).2.getLast? = some MergeEvent.close ∧
      (∀ j, fromInput j (Merge (closedInputs ins) sched).2 = ins.getD j []) ∧
      (valuesOf (Merge (closedInputs ins) sched).2).Perm ins.flatten) ∧
    ((∀ j s, ins[j]? = some s → s.length + 1 ≤ sched.count j) →
      (Merge (closedInputs ins) (sched ++ [ins.length])).1.closed = true) := by
  have hinit := Merge_init_inv ins
  have hinv := Merge_run_inv sched _ hinit
  have hclose := Merge_run_close sched
    (⟨(closedInputs ins).map Relay.ranging, (closedInputs ins).length, false⟩ : MergeState α)
  have hrest := fun j => Merge_run_rest j sched
    (⟨(closedInputs ins).map Relay.ranging, (closedInputs ins).length, false⟩ : MergeState α)
  refine ⟨fun j => ?_, ?_, fun hc => ⟨?_, ?_, fun j => ?_, ?_⟩, fun hfair => ?_⟩
  · have := hrest j
    rw [Merge_init_rest] at this
    exact ⟨_, this⟩
  · unfold Merge
    simp only [Bool.false_eq_true, if_false, Nat.add_zero] at hclose
    rw [hclose]
    split <;> omega
  · unfold Merge at hc ⊢
    simp [hc] at hclose
    exact hclose
  · exact Merge_run_last sched _ hinit rfl hc
  · have := hrest j
    rw [Merge_init_rest, Merge_closed_restAt _ hinv hc, List.append_nil] at this
    exact this
  · have := Merge_run_perm sched
      (⟨(closedInputs ins).map Relay.ranging, (closedInputs ins).length, false⟩ :
        MergeState α)
    rw [Merge_init_flatten, Merge_closed_flatten _ hinv hc, List.append_nil] at this
    exact this
  · unfold Merge
    rw [Merge_run_append]
    simp only
    have hlen := Merge_run_length sched
      (⟨(closedInputs ins).map Relay.ranging, (closedInputs ins).length, false⟩ :
        MergeState α)
    have hlen2 : (Merge_run (⟨(closedInputs ins).map Relay.ranging,
        (closedInputs ins).length, false⟩ : MergeState α) sched).1.relays.length =
        ins.length := by
      rw [hlen]; simp [closedInputs]
    rw [← hlen2]
    apply Merge_closer_fires _ hinv
    intro i
    rw [Merge_run_work i sched _ hinit]
    cases hs : ins[i]? with
    | none =>
      have : workAt (⟨(closedInputs ins).map Relay.ranging, (closedInputs ins).length,
          false⟩ : MergeState α) i = 0 := by
        simp [workAt, closedInputs, List.getElem?_map, hs]
      omega
    | some s =>
      rw [Merge_init_work ins i s hs]
      have := hfair i s hs
      omega

/-- C14 for the inputs `[1, 2]` and `[3, 4]` under the schedule in which the
relays move in the order `0, 1, 1, 0, 0, 1` and then the closer moves: the
output is closed, the sequence read is `[1, 3, 4, 2]`, a permutation of
`[1, 2, 3, 4]`, and each input has been relayed in its own order. -/
theorem C14_Merge_interleaves_witness :
    (Merge (closedInputs [[(some 1 : Data Nat), some 2], [some 3, some 4]])
      [0, 1, 1, 0, 0, 1, 2]).1.closed = true ∧
    valuesOf (Merge (closedInputs [[(some 1 : Data Nat), some 2], [some 3, some 4]])
      [0, 1, 1, 0, 0, 1, 2]).2 = [some 1, some 3, some 4, some 2] ∧
    (valuesOf (Merge (closedInputs [[(some 1 : Data Nat), some 2], [some 3, some 4]])
      [0, 1, 1, 0, 0, 1, 2]).2).Perm [some 1, some 2, some 3, some 4] ∧
    fromInput 0 (Merge (closedInputs [[(some 1 : Data Nat), some 2], [some 3, some 4]])
      [0, 1, 1, 0, 0, 1, 2]).2 = [some 1, some 2] ∧
    fromInput 1 (Merge (closedInputs [[(some 1 : Data Nat), some 2], [some 3, some 4]])
      [0, 1, 1, 0, 0, 1, 2]).2 = [some 3, some 4] := by
  have hc : (Merge (closedInputs [[(some 1 : Data Nat), some 2], [some 3, some 4]])
      [0, 1, 1, 0, 0, 1, 2]).1.closed = true := by decide
  have h := (C14_Merge_interleaves [[(some 1 : Data Nat), some 2], [some 3, some 4]]
    [0, 1, 1, 0, 0, 1, 2]).2.2.1 hc
  exact ⟨hc, by decide, h.2.2.2, h.2.2.1 0, h.2.2.1 1⟩



/-! ### Closing the outputs of Tee and FanOut -/

theorem closesOf_append {α : Type} (a b : List (Event α)) :
    closesOf (a ++ b) = closesOf a ++ closesOf b := by
  induction a with
  | nil => simp [closesOf]
  | cons e es ih => cases e <;> simp [closesOf, ih]

theorem closesOf_map_close {α : Type} (out : List Nat) :
    closesOf (out.map (Event.close : Nat → Event α)) = out := by
  induction out with
  | nil => simp [closesOf]
  | cons c cs ih => simp [closesOf, ih]

theorem closesOf_map_send {α : Type} {ι : Type} (f : ι → Nat) (g : ι → Data α) (l : List ι) :
    closesOf (l.map (fun p => Event.send (f p) (g p))) = [] := by
  induction l with
  | nil => simp [closesOf]
  | cons p ps ih => simp [closesOf, ih]

theorem closesOf_flatMap_send {α : Type} (out : List Nat) (s : List (Data α)) :
    closesOf (s.flatMap (fun v => out.map (fun ch => Event.send ch v))) = [] := by
  induction s with
  | nil => simp [closesOf]
  | cons v vs ih =>
    simp only [List.flatMap_cons, closesOf_append, ih, List.append_nil]
    exact closesOf_map_send (fun ch => ch) (fun _ => v) out

/-- C15, as amended: for every finite input sequence `s` (delivered, then closed)
and every list `out` of pairwise distinct outputs, the trace of `Tee` is all
its sends, for every element of `s`, followed by one close of each output in
index order, and so is the trace of `FanOut` when there is an output at all;
each supplied output is closed exactly once, after the input is exhausted and
after the last send. -/
theorem C15_Tee_FanOut_close_each_output_once {α : Type} (s : List (Data α))
    (out : List Nat) (hnd : out.Nodup) (m : Nat) :
    Tee (some ⟨s, true⟩) out (s.length + 1 + m) =
      ⟨s.flatMap (fun v => out.map (fun ch => Event.send ch v)) ++ out.map Event.close,
       .returned⟩ ∧
    (∀ ch ∈ out, (closesOf (Tee (some ⟨s, true⟩) out (s.length + 1 + m)).events).count ch = 1) ∧
    (∀ ch ∈ out,
      FanOut (some ⟨s, true⟩) out (s.length + 1 + m) =
        ⟨s.enum.map (fun p => Event.send ((out[p.1 % out.length]?).getD 0) p.2) ++
          out.map Event.close, .returned⟩ ∧
      (closesOf (FanOut (some ⟨s, true⟩) out (s.length + 1 + m)).events).count ch = 1) := by
  refine ⟨Tee_closed_trace s out hnd m, fun ch hch => ?_, fun ch hch => ?_⟩
  · rw [Tee_closed_trace s out hnd m]
    simp only [closesOf_append, closesOf_flatMap_send, closesOf_map_close, List.nil_append]
    exact List.count_eq_one_of_mem hnd hch
  · have hne : out ≠ [] := List.ne_nil_of_mem hch
    refine ⟨FanOut_closed_trace s out hne hnd m, ?_⟩
    rw [FanOut_closed_trace s out hne hnd m]
    simp only [closesOf_append, closesOf_map_close]
    rw [closesOf_map_send (fun p : Nat × Data α => (out[p.1 % out.length]?).getD 0)
      (fun p => p.2)]
    exact List.count_eq_one_of_mem hnd hch

/-- C15 at the source `[1, 2]` with the outputs `10` and `11`: `Tee` and `FanOut`
each close `10` once and `11` once, after all their sends. -/
theorem C15_Tee_FanOut_close_each_output_once_witness :
    ([10, 11] : List Nat).Nodup ∧
    Tee (some ⟨[some 1, some 2], true⟩ : Option (Chan Nat)) [10, 11] 3 =
      ⟨[.send 10 (some 1), .send 11 (some 1), .send 10 (some 2), .send 11 (some 2),
        .close 10, .close 11], .returned⟩ ∧
    FanOut (some ⟨[some 1, some 2], true⟩ : Option (Chan Nat)) [10, 11] 3 =
      ⟨[.send 10 (some 1), .send 11 (some 2), .close 10, .close 11], .returned⟩ := by
  have h := C15_Tee_FanOut_close_each_output_once [(some 1 : Data Nat), some 2] [10, 11]
    (by decide) 0
  refine ⟨by decide, ?_, ?_⟩
  · exact h.1
  · exact (h.2.2 10 (by decide)).1

/-- C15 fails for a list of outputs that names a channel twice: with the outputs
`7, 7, 8` the deferred loop closes `7`, faults on closing `7` again, and never
closes `8`, in `Tee` and in `FanOut` alike. -/
theorem C15_duplicate_output_counterexample :
    Tee (some ⟨[some 1], true⟩ : Option (Chan Nat)) [7, 7, 8] 2 =
      ⟨[.send 7 (some 1), .send 7 (some 1), .send 8 (some 1), .close 7], .faulted⟩ ∧
    (closesOf (Tee (some ⟨[some 1], true⟩ : Option (Chan Nat)) [7, 7, 8] 2).events).count 8 = 0 ∧
    FanOut (some ⟨[some 1], true⟩ : Option (Chan Nat)) [7, 7, 8] 2 =
      ⟨[.send 7 (some 1), .close 7], .faulted⟩ ∧
    (closesOf (FanOut (some ⟨[some 1], true⟩ : Option (Chan Nat)) [7, 7, 8] 2).events).count 8 = 0 := by
  decide

/-! ### Reduce on an empty input -/

/-- C16, as amended: on a present input on which nothing arrives and which is
never closed, `Reduce` never returns, whatever the combining function; on a
present input that is closed before any element it returns nil without calling
the combining function, as it does on an absent input. -/
theorem C16_Reduce_empty_input {α : Type} (fn : Data α → Data α → Data α) :
    Reduce (some ⟨[], false⟩) fn = .blocks ∧
    Reduce (some ⟨[], true⟩) fn = .ret none 0 ∧
    Reduce none fn = .ret none 0 := by
  refine ⟨?_, ?_, rfl⟩
  · simp [Reduce, recv]
  · simp [Reduce, recv, Reduce_range]

/-- C16 fails on an input that is present, empty and closed: `Reduce` returns nil
there instead of blocking. -/
theorem C16_closed_empty_counterexample :
    Reduce (some ⟨[], true⟩) keepFirst = .ret none 0 ∧
    Reduce (some ⟨[], true⟩) keepFirst ≠ .blocks := by
  decide



/-! ### What TakeN leaves on the source -/

theorem TakeN_run_within {α : Type} (num : Int) (cl : Bool) (k : Nat) :
    ∀ (s : List (Data α)) (i : Int) (t m : Nat), (num - i).toNat = k → k ≤ s.length →
      run (TakeN_step neverDone num) (k + 1 + m) ⟨some ⟨s, cl⟩, i, t⟩ =
        ⟨s.take k, .returned⟩ ∧
      runState (TakeN_step neverDone num) (k + 1 + m) ⟨some ⟨s, cl⟩, i, t⟩ =
        ⟨some ⟨s.drop k, cl⟩, i + k, t + k⟩ := by
  induction k with
  | zero =>
    intro s i t m h _
    have hi : ¬ i < num := by omega
    rw [show 0 + 1 + m = m + 1 by omega]
    simp [run, runState, TakeN_step, hi]
  | succ k ih =>
    intro s i t m h hk
    have hi : i < num := by omega
    have hk' : (num - (i + 1)).toNat = k := by omega
    rw [show k + 1 + 1 + m = (k + 1 + m) + 1 by omega]
    cases s with
    | nil => simp at hk
    | cons v vs =>
      have hlen : k ≤ vs.length := by simpa using hk
      obtain ⟨h1, h2⟩ := ih vs (i + 1) (t + 1) m hk' hlen
      have e1 : i + 1 + (k : Int) = i + ((k + 1 : Nat) : Int) := by push_cast; ring
      have e2 : t + 1 + k = t + (k + 1) := by omega
      rw [e1, e2] at h2
      constructor
      · simp [run, TakeN_step, hi, recv, neverDone, h1]
      · simp only [runState, TakeN_step, hi, recv, neverDone, if_true, Bool.false_eq_true,
          if_false, h2, List.drop_succ_cons]

theorem TakeN_last_iteration_is_loop_test {α : Type} (s : List (Data α)) (cl : Bool)
    (n : Nat) (hn : n ≤ s.length) (m : Nat) :
    TakeN_step neverDone (n : Int)
      (runState (TakeN_step neverDone (n : Int)) (n + 1 + m) ⟨some ⟨s, cl⟩, 0, 0⟩) = .ret ∧
    ¬ (runState (TakeN_step neverDone (n : Int)) (n + 1 + m)
      (⟨some ⟨s, cl⟩, 0, 0⟩ : CountState α)).i < (n : Int) := by
  obtain ⟨_, h2⟩ := TakeN_run_within (n : Int) cl n s 0 0 m (by simp) hn
  rw [h2]
  simp [TakeN_step]

/-- C17: for every source sequence `s` (whether or not the source is closed after
it), every `n` with `0 <= n <= len(s)`, and a cancellation signal that never
fires, `TakeN` forwards the first `n` elements of `s` and closes its output,
and the source it leaves behind still holds exactly `s[n:]`: it has received
`n` elements and no more. -/
theorem C17_TakeN_leaves_remainder {α : Type} (s : List (Data α)) (cl : Bool) (n : Nat)
    (hn : n ≤ s.length) (m : Nat) :
    TakeN neverDone (some ⟨s, cl⟩) (n : Int) (n + 1 + m) = ⟨s.take n, .returned⟩ ∧
    (runState (TakeN_step neverDone (n : Int)) (n + 1 + m)
      ⟨some ⟨s, cl⟩, 0, 0⟩).valueStream = some ⟨s.drop n, cl⟩ := by
  obtain ⟨h1, h2⟩ := TakeN_run_within (n : Int) cl n s 0 0 m (by simp) hn
  exact ⟨h1, by rw [h2]⟩

/-- C17 at the source `[1, 2, 3]` with `n = 2`: the output is `[1, 2]` and the
source still holds `[3]`. -/
theorem C17_TakeN_leaves_remainder_witness :
    2 ≤ [(some 1 : Data Nat), some 2, some 3].length ∧
    TakeN neverDone (some ⟨[(some 1 : Data Nat), some 2, some 3], true⟩) 2 3 =
      ⟨[some 1, some 2], .returned⟩ ∧
    (runState (TakeN_step neverDone 2) 3
      ⟨some ⟨[(some 1 : Data Nat), some 2, some 3], true⟩, 0, 0⟩).valueStream =
        some ⟨[some 3], true⟩ := by
  have h := C17_TakeN_leaves_remainder [(some 1 : Data Nat), some 2, some 3] true 2
    (by decide) 0
  exact ⟨by decide, h.1, h.2⟩

/-! ### The index of FanOut -/

theorem FanOut_index_in_range {α : Type} (out : List Nat) (fuel : Nat) :
    ∀ st : FanOutState α, st.i < out.length →
      (run (FanOut_step out) fuel st).status ≠ .faulted ∧
      (runState (FanOut_step out) fuel st).i < out.length := by
  induction fuel with
  | zero => intro st h; simp [run, runState, h]
  | succ n ih =>
    intro st h
    have hne : out.length ≠ 0 := by omega
    have hget : out[st.i]? = some (out.get ⟨st.i, h⟩) := List.getElem?_eq_getElem h
    cases hr : recv st.input with
    | none => simp [run, runState, FanOut_step, hr, h]
    | some r =>
      obtain ⟨v, ok, rest⟩ := r
      cases ok with
      | false => simp [run, runState, FanOut_step, hr, h]
      | true =>
        have hlt : (st.i + 1) % out.length < out.length := Nat.mod_lt _ (by omega)
        have := ih ⟨rest, (st.i + 1) % out.length⟩ hlt
        simp only [run, runState, FanOut_step, hr, hget, hne, if_false]
        exact this

/-- C20: with at least one output, whatever the input and however long `FanOut`
runs, its loop never faults and the index `i` stays below `N = len(out)`: the
indexing `out[i]` is in range and the modulus `N` is not zero.  With no output,
the first element of a non-empty input faults on `out[0]`, and an empty closed
input ends the loop without a fault. -/
theorem C20_FanOut_index_safety {α : Type} :
    (∀ (input : Option (Chan α)) (o : Nat) (os : List Nat) (fuel : Nat),
      (run (FanOut_step (o :: os)) fuel (⟨input, 0⟩ : FanOutState α)).status ≠ .faulted ∧
      (runState (FanOut_step (o :: os)) fuel (⟨input, 0⟩ : FanOutState α)).i <
        (o :: os).length) ∧
    (∀ (v : Data α) (vs : List (Data α)) (cl : Bool) (fuel : Nat),
      FanOut (some ⟨v :: vs, cl⟩) [] (fuel + 1) = ⟨[], .faulted⟩) ∧
    (∀ fuel : Nat,
      FanOut (some ⟨([] : List (Data α)), true⟩) [] (fuel + 1) = ⟨[], .returned⟩) := by
  refine ⟨fun input o os fuel => ?_, fun v vs cl fuel => ?_, fun fuel => ?_⟩
  · exact FanOut_index_in_range (o :: os) fuel ⟨input, 0⟩ (by simp)
  · simp [FanOut, run, FanOut_step, recv, closeAll]
  · simp [FanOut, run, FanOut_step, recv, closeAll]



/-! ### FanOutReflect and TeeReflect -/

theorem reflectSelect_some {α : Type} (pick : Nat) (enabled : List Nat) (a : α)
    (hne : enabled ≠ []) :
    ∃ k, k ∈ enabled ∧ reflectSelect pick enabled (some a : Data α) = .chose k := by
  cases enabled with
  | nil => exact absurd rfl hne
  | cons e es =>
    have hlt : pick % (e :: es).length < (e :: es).length := Nat.mod_lt _ (by simp)
    refine ⟨(e :: es).getD (pick % (e :: es).length) e, ?_, rfl⟩
    rw [List.getD_eq_getElem _ _ hlt]
    exact List.getElem_mem hlt

theorem sendsOf_closeAll {α : Type} (out : List Nat) :
    ∀ acc : List Nat, sendsOf (closeAll acc out : Trace (Event α)).events = [] := by
  induction out with
  | nil => intro acc; simp [closeAll, sendsOf]
  | cons c cs ih =>
    intro acc
    by_cases hc : c ∈ acc
    · simp [closeAll, hc, sendsOf]
    · simp [closeAll, hc, sendsOf, ih]

theorem FanOutReflect_run_boxed {α : Type} (choice : Nat → Nat) (out : List Nat)
    (hne : out ≠ []) (vals : List α) :
    ∀ (t m : Nat),
      (run (FanOutReflect_step choice out) (vals.length + 1 + m)
        ⟨some ⟨vals.map some, true⟩, t⟩).status = .returned ∧
      (sendsOf (run (FanOutReflect_step choice out) (vals.length + 1 + m)
        ⟨some ⟨vals.map some, true⟩, t⟩).events).map Prod.snd = vals.map some ∧
      (∀ e ∈ sendsOf (run (FanOutReflect_step choice out) (vals.length + 1 + m)
        ⟨some ⟨vals.map some, true⟩, t⟩).events, e.1 ∈ out) := by
  induction vals with
  | nil =>
    intro t m
    rw [show ([] : List α).length + 1 + m = m + 1 by simp; omega]
    simp [run, FanOutReflect_step, recv, sendsOf]
  | cons a as ih =>
    intro t m
    rw [show (a :: as).length + 1 + m = (as.length + 1 + m) + 1 by simp; omega]
    have hrange : List.range out.length ≠ [] := by
      intro h
      have := congrArg List.length h
      simp at this
      exact hne this
    obtain ⟨k, hk, hsel⟩ := reflectSelect_some (choice t) (List.range out.length) a hrange
    have hlt : k < out.length := List.mem_range.mp hk
    have hget : out[k]? = some (out.get ⟨k, hlt⟩) := List.getElem?_eq_getElem hlt
    obtain ⟨h1, h2, h3⟩ := ih (t + 1) m
    simp only [run, FanOutReflect_step, recv, List.map_cons, hsel, hget, sendsOf]
    refine ⟨h1, ?_, ?_⟩
    · simp [h2]
    · intro e he
      rcases List.mem_cons.mp he with rfl | he
      · exact List.get_mem _ _ _
      · exact h3 e he

theorem FanOutReflect_boxed {α : Type} (choice : Nat → Nat) (out : List Nat)
    (hne : out ≠ []) (vals : List α) (m : Nat) :
    (sendsOf (FanOutReflect choice (some ⟨vals.map some, true⟩) out
      (vals.length + 1 + m)).events).map Prod.snd = vals.map some ∧
    (∀ e ∈ sendsOf (FanOutReflect choice (some ⟨vals.map some, true⟩) out
      (vals.length + 1 + m)).events, e.1 ∈ out) := by
  obtain ⟨h1, h2, h3⟩ := FanOutReflect_run_boxed choice out hne vals 0 m
  have hsends : sendsOf (FanOutReflect choice (some ⟨vals.map some, true⟩) out
      (vals.length + 1 + m)).events =
      sendsOf (run (FanOutReflect_step choice out) (vals.length + 1 + m)
        ⟨some ⟨vals.map some, true⟩, 0⟩).events := by
    unfold FanOutReflect
    generalize run (FanOutReflect_step choice out) (vals.length + 1 + m)
      (⟨some ⟨vals.map some, true⟩, 0⟩ : FanOutReflectState α) = r at h1
    obtain ⟨ev, stt⟩ := r
    simp only at h1
    subst h1
    simp [sendsOf_append, sendsOf_closeAll]
  rw [hsends]
  exact ⟨h2, h3⟩

/-- C18: `FanOutReflect` hands `reflect.ValueOf(v)` to `reflect.Select`, which
panics when `v` is the nil interface: on the input `[nil]` with one output the
goroutine faults at the element, which reaches no output, however the select
is resolved.  On an input of boxed (non-nil) values, with at least one output
and for every resolution of the selects, the sends carry exactly the input
elements, one send per element and in input order, each to one of the
outputs. -/
theorem C18_FanOutReflect_faults_on_nil :
    (∀ (choice : Nat → Nat) (m : Nat),
      FanOutReflect choice (some ⟨[(none : Data Nat)], true⟩) [10] (m + 1) =
        ⟨[.close 10], .faulted⟩) ∧
    (∀ (α : Type) (choice : Nat → Nat) (o : Nat) (os : List Nat) (vals : List α) (m : Nat),
      (sendsOf (FanOutReflect choice (some ⟨vals.map some, true⟩) (o :: os)
        (vals.length + 1 + m)).events).map Prod.snd = vals.map some ∧
      (∀ e ∈ sendsOf (FanOutReflect choice (some ⟨vals.map some, true⟩) (o :: os)
        (vals.length + 1 + m)).events, e.1 ∈ o :: os)) := by
  refine ⟨fun choice m => ?_, fun α choice o os vals m => ?_⟩
  · have hr : List.range 1 = [0] := rfl
    simp [FanOutReflect, run, FanOutReflect_step, recv, reflectSelect, closeAll, hr]
  · exact FanOutReflect_boxed choice (o :: os) (by simp) vals m



theorem TeeReflect_round {α : Type} (choice : Nat → Nat) (out : List Nat)
    (inp : Option (Chan α)) (a : α) (left : Nat) :
    ∀ (enabled : List Nat) (t n : Nat), enabled.Nodup → enabled.length = left →
      (∀ k ∈ enabled, k < out.length) →
      ∃ ks : List Nat, ks.Perm enabled ∧
        run (TeeReflect_step choice out) (left + n) ⟨inp, some (some a, enabled, left), t⟩ =
          ⟨ks.map (fun k => Event.send ((out[k]?).getD 0) (some a)) ++
            (run (TeeReflect_step choice out) n ⟨inp, some (some a, [], 0), t + left⟩).events,
           (run (TeeReflect_step choice out) n ⟨inp, some (some a, [], 0), t + left⟩).status⟩ := by
  induction left with
  | zero =>
    intro enabled t n _ hlen _
    have hnil : enabled = [] := List.length_eq_zero.mp hlen
    subst hnil
    exact ⟨[], List.Perm.refl _, by simp⟩
  | succ left ih =>
    intro enabled t n hnd hlen hlt
    have hne : enabled ≠ [] := by
      intro h; rw [h] at hlen; simp at hlen
    obtain ⟨k, hk, hsel⟩ := reflectSelect_some (choice t) enabled a hne
    have hkl : k < out.length := hlt k hk
    have hget : out[k]? = some (out.get ⟨k, hkl⟩) := List.getElem?_eq_getElem hkl
    have hlen' : (enabled.erase k).length = left := by
      rw [List.length_erase_of_mem hk, hlen]; rfl
    obtain ⟨ks, hperm, hrun⟩ := ih (enabled.erase k) (t + 1) n (hnd.erase k) hlen'
      (fun j hj => hlt j (List.mem_of_mem_erase hj))
    refine ⟨k :: ks, (hperm.cons k).trans (List.perm_cons_erase hk).symm, ?_⟩
    rw [show left + 1 + n = (left + n) + 1 by omega]
    rw [show t + 1 + left = t + (left + 1) by omega] at hrun
    simp only [run, TeeReflect_step, hsel, hget, hrun, List.map_cons, Option.getD_some,
      List.cons_append]

theorem received_append {α : Type} (ch : Nat) (a b : List (Event α)) :
    received ch (a ++ b) = received ch a ++ received ch b := by
  simp [received, sendsOf_append]

theorem received_closeAll {α : Type} (ch : Nat) (out acc : List Nat) :
    received ch (closeAll acc out : Trace (Event α)).events = [] := by
  simp [received, sendsOf_closeAll]

theorem TeeReflect_block_values {α : Type} (out : List Nat) (ks : List Nat)
    (hperm : ks.Perm (List.range out.length)) (v : Data α) :
    (sendsOf (ks.map (fun k => Event.send ((out[k]?).getD 0) v))).map Prod.snd =
      List.replicate out.length v := by
  rw [sendsOf_map_send (fun k => (out[k]?).getD 0) (fun _ => v), List.map_map]
  have hlen : ks.length = out.length := by rw [hperm.length_eq, List.length_range]
  rw [← hlen]
  exact List.map_const' ks v

theorem TeeReflect_block_received {α : Type} (out : List Nat) (hnd : out.Nodup)
    (ks : List Nat) (hperm : ks.Perm (List.range out.length)) (v : Data α)
    (ch : Nat) (hch : ch ∈ out) :
    received ch (ks.map (fun k => Event.send ((out[k]?).getD 0) v)) = [v] := by
  obtain ⟨k0, hk0, hget0⟩ := List.getElem_of_mem hch
  have hsome0 : out[k0]? = some ch := by rw [List.getElem?_eq_getElem hk0, hget0]
  unfold received
  rw [sendsOf_map_send (fun k => (out[k]?).getD 0) (fun _ => v), List.filter_map, List.map_map]
  have hfilter : ks.filter ((fun e : Nat × Data α => e.1 == ch) ∘
      fun k => ((out[k]?).getD 0, v)) = ks.filter (fun k => k == k0) := by
    apply List.filter_congr
    intro k hk
    have hkl : k < out.length := List.mem_range.mp (hperm.mem_iff.mp hk)
    have hget : out[k]? = some out[k] := List.getElem?_eq_getElem hkl
    simp only [Function.comp, hget, Option.getD_some]
    by_cases hkk : k = k0
    · subst hkk
      have : out[k] = ch := by
        rw [hget] at hsome0; exact Option.some.inj hsome0
      simp [this]
    · have hneq : out[k] ≠ ch := by
        intro h
        exact hkk (nodup_index_unique out hnd k k0 ch (by rw [hget, h]) hsome0)
      simp [hkk, hneq]
  have hone : (ks.filter (fun k => k == k0)).length = 1 := by
    rw [← List.countP_eq_length_filter, hperm.countP_eq]
    exact List.count_eq_one_of_mem (List.nodup_range _) (List.mem_range.mpr hk0)
  rw [hfilter]
  have hconst : (Prod.snd ∘ fun k : Nat => ((out[k]?).getD 0, v)) = fun _ => v := rfl
  rw [hconst, List.map_const', hone]
  rfl

theorem TeeReflect_run_boxed {α : Type} (choice : Nat → Nat) (out : List Nat)
    (hnd : out.Nodup) (vals : List α) :
    ∀ (cur : Option (Data α × List Nat × Nat)) (t m : Nat),
      (cur = none ∨ ∃ v en, cur = some (v, en, 0)) →
      ∀ r, r = run (TeeReflect_step choice out) (vals.length * (out.length + 1) + 1 + m)
          ⟨some ⟨vals.map some, true⟩, cur, t⟩ →
        r.status = .returned ∧
        (sendsOf r.events).map Prod.snd =
          (vals.map some).flatMap (fun v => List.replicate out.length v) ∧
        (∀ ch ∈ out, received ch r.events = vals.map some) := by
  induction vals with
  | nil =>
    intro cur t m hidle r hr
    rw [show ([] : List α).length * (out.length + 1) + 1 + m = m + 1 by simp; omega] at hr
    rcases hidle with rfl | ⟨v, en, rfl⟩ <;>
      simp [run, TeeReflect_step, recv] at hr <;>
      subst hr <;> simp [sendsOf, received]
  | cons a as ih =>
    intro cur t m hidle r hr
    rw [show (a :: as).length * (out.length + 1) + 1 + m =
      (out.length + (as.length * (out.length + 1) + 1 + m)) + 1 by
        simp only [List.length_cons]; ring] at hr
    obtain ⟨ks, hperm, hround⟩ := TeeReflect_round choice out
      (some ⟨as.map some, true⟩) a out.length (List.range out.length) t
      (as.length * (out.length + 1) + 1 + m) (List.nodup_range _) (List.length_range _)
      (fun k hk => List.mem_range.mp hk)
    obtain ⟨h1, h2, h3⟩ := ih (some (some a, [], 0)) (t + out.length) m
      (Or.inr ⟨some a, [], rfl⟩) _ rfl
    have hstep : r = run (TeeReflect_step choice out)
        (out.length + (as.length * (out.length + 1) + 1 + m))
        ⟨some ⟨as.map some, true⟩, some (some a, List.range out.length, out.length), t⟩ := by
      rcases hidle with rfl | ⟨v, en, rfl⟩ <;>
        simpa [run, TeeReflect_step, recv] using hr
    rw [hround] at hstep
    subst hstep
    refine ⟨h1, ?_, fun ch hch => ?_⟩
    · simp only [sendsOf_append, List.map_append, TeeReflect_block_values out ks hperm, h2,
        List.map_cons, List.flatMap_cons]
    · simp only [received_append, TeeReflect_block_received out hnd ks hperm (some a) ch hch,
        h3 ch hch, List.map_cons, List.singleton_append]

theorem TeeReflect_boxed {α : Type} (choice : Nat → Nat) (out : List Nat)
    (hnd : out.Nodup) (vals : List α) (m : Nat) :
    (TeeReflect choice (some ⟨vals.map some, true⟩) out
      (vals.length * (out.length + 1) + 1 + m)).status = .returned ∧
    (sendsOf (TeeReflect choice (some ⟨vals.map some, true⟩) out
      (vals.length * (out.length + 1) + 1 + m)).events).map Prod.snd =
        (vals.map some).flatMap (fun v => List.replicate out.length v) ∧
    (∀ ch ∈ out, received ch (TeeReflect choice (some ⟨vals.map some, true⟩) out
      (vals.length * (out.length + 1) + 1 + m)).events = vals.map some) := by
  obtain ⟨h1, h2, h3⟩ := TeeReflect_run_boxed choice out hnd vals none 0 m (Or.inl rfl) _ rfl
  have hshape : TeeReflect choice (some ⟨vals.map some, true⟩) out
      (vals.length * (out.length + 1) + 1 + m) =
      ⟨(run (TeeReflect_step choice out) (vals.length * (out.length + 1) + 1 + m)
          ⟨some ⟨vals.map some, true⟩, none, 0⟩).events ++ out.map Event.close,
        .returned⟩ := by
    unfold TeeReflect
    generalize run (TeeReflect_step choice out) (vals.length * (out.length + 1) + 1 + m)
      (⟨some ⟨vals.map some, true⟩, none, 0⟩ : TeeReflectState α) = r at h1
    obtain ⟨ev, stt⟩ := r
    simp only at h1
    subst h1
    simp [closeAll_nodup out [] hnd (fun _ _ => by simp)]
  rw [hshape]
  refine ⟨rfl, ?_, fun ch hch => ?_⟩
  · simp only [sendsOf_append, sendsOf_map_close, List.append_nil]
    exact h2
  · have hclose : received ch (out.map (Event.close : Nat → Event α)) = [] := by
      simp [received, sendsOf_map_close]
    simp only [received_append, hclose, List.append_nil]
    exact h3 ch hch

/-- C19: `TeeReflect` hands `reflect.ValueOf(v)` to `reflect.Select`, which panics
when `v` is the nil interface: on the input `[nil]` with one output the
goroutine faults at the first select of the element, which reaches no output,
however the select is resolved.  On an input of boxed (non-nil) values, with
pairwise distinct outputs and for every resolution of the selects, the
goroutine runs to completion, the sends come in blocks of `N = len(out)` sends
of one element, in input order, and every output receives exactly the input
sequence. -/
theorem C19_TeeReflect_faults_on_nil :
    (∀ (choice : Nat → Nat) (m : Nat),
      TeeReflect choice (some ⟨[(none : Data Nat)], true⟩) [10] (m + 2) =
        ⟨[.close 10], .faulted⟩) ∧
    (∀ (α : Type) (choice : Nat → Nat) (out : List Nat) (vals : List α) (m : Nat),
      out.Nodup →
      (TeeReflect choice (some ⟨vals.map some, true⟩) out
        (vals.length * (out.length + 1) + 1 + m)).status = .returned ∧
      (sendsOf (TeeReflect choice (some ⟨vals.map some, true⟩) out
        (vals.length * (out.length + 1) + 1 + m)).events).map Prod.snd =
          (vals.map some).flatMap (fun v => List.replicate out.length v) ∧
      (∀ ch ∈ out, received ch (TeeReflect choice (some ⟨vals.map some, true⟩) out
        (vals.length * (out.length + 1) + 1 + m)).events = vals.map some)) := by
  refine ⟨fun choice m => ?_, fun α choice out vals m hnd => TeeReflect_boxed choice out hnd vals m⟩
  have hr : List.range 1 = [0] := rfl
  simp [TeeReflect, run, TeeReflect_step, recv, reflectSelect, closeAll, hr]

end Channels
